import Mathlib

/-!
Verification of the JobTracker spreadsheet-ingestion core
(`src/helpers/jobListingJson.ts` and the two sibling implementations in
`src/unnamed/part_002` and `src/helpers.ts/jobListingJson.ts`).

The pipeline takes an untyped Google-Sheets API payload, validates its
envelope, resolves the header row, builds one partial record per data row
and validates each record against the JobListing schema, silently dropping
rows that fail.  We embed the pipeline shallowly: JSON values are an
inductive `Json`, zod validators become `Option`-returning functions, and
the zod `safeParse` fault boundary is modelled with `Except`.
-/

namespace JobTracker

/-- A JSON value, as delivered to `parseJobListings` after `JSON.parse`.
Numbers are modelled as integers; the pipeline only ever carries them
around and tests their type, never computes with them. -/
inductive Json where
  | str : String → Json
  | num : Int → Json
  | bool : Bool → Json
  | null : Json
  | arr : List Json → Json
  | obj : List (String × Json) → Json

/-- Property lookup on a JSON object (objects produced by `JSON.parse`
have distinct keys, so first-match lookup is adequate). -/
def jLookup : List (String × Json) → String → Option Json
  | [], _ => none
  | (k, v) :: rest, key => if k = key then some v else jLookup rest key

/-- A Google-Sheets cell value accepted by `jsonSheetCellValidator`
(`z.union([z.string(), z.number(), z.boolean()])`). -/
inductive Cell where
  | str : String → Cell
  | num : Int → Cell
  | bool : Bool → Cell
deriving DecidableEq

/-- The `jsonSheetCellValidator` union: accepts exactly text, number and
boolean JSON values. -/
def jsonToCell : Json → Option Cell
  | Json.str s => some (Cell.str s)
  | Json.num n => some (Cell.num n)
  | Json.bool b => some (Cell.bool b)
  | _ => none

/-- Embeds a cell back into JSON (used to build concrete payloads). -/
def cellToJson : Cell → Json
  | Cell.str s => Json.str s
  | Cell.num n => Json.num n
  | Cell.bool b => Json.bool b

/-- The `z.string()` check applied to a cell (used on header cells by
`apiDataValidator`). -/
def cellString : Cell → Option String
  | Cell.str s => some s
  | _ => none

/-- All-or-nothing elementwise validation, as zod's `z.array(...)` does. -/
def mapO (f : α → Option β) : List α → Option (List β)
  | [] => some []
  | a :: as =>
    match f a, mapO f as with
    | some b, some bs => some (b :: bs)
    | _, _ => none

/-- The eight required field names, in source order (`requiredFields`). -/
def requiredFields : List String :=
  ["company", "jobTitle", "location", "appStatus", "url", "notes",
   "dateSubmitted", "dateLastModified"]

/-- Membership in the required-field set (`isRequiredField`, backed by the
`requiredFieldsSet` JS `Set`). -/
def isRequiredField (s : String) : Bool := decide (s ∈ requiredFields)

/-- Pairwise distinctness of the header names; models the
`apiFields.length === new Set(apiFields).size` refinement. -/
def distinctL : List String → Bool
  | [] => true
  | x :: xs => decide (x ∉ xs) && distinctL xs

/-- The `fields` schema of `apiDataValidator`: at least 8 names, no
duplicates, every required field present. -/
def fieldsOk (fs : List String) : Bool :=
  decide (8 ≤ fs.length) && distinctL fs &&
    decide (∀ n ∈ requiredFields, n ∈ fs)

/-- All characters are decimal digits. -/
def allDigits : List Char → Bool
  | [] => true
  | c :: cs => c.isDigit && allDigits cs

/-- Tail of a datetime string after the optional dot: zero or more digits
followed by a final `Z`. -/
def fracDigits : List Char → Bool
  | ['Z'] => true
  | c :: cs => c.isDigit && fracDigits cs
  | [] => false

/-- What may follow the seconds of a datetime: `Z`, or `.`, at least one
digit, then `Z`. -/
def secondsTail : List Char → Bool
  | ['Z'] => true
  | '.' :: c :: cs => c.isDigit && fracDigits (c :: cs)
  | _ => false

/-- Models zod's default `z.string().datetime()` check: the anchored
pattern `\d4-\d2-\d2T\d2:\d2:\d2(fraction)?Z` with UTC `Z` and arbitrary
sub-second precision. -/
def isDatetime (s : String) : Bool :=
  match s.toList with
  | y1 :: y2 :: y3 :: y4 :: '-' :: m1 :: m2 :: '-' :: d1 :: d2 :: 'T' ::
      h1 :: h2 :: ':' :: n1 :: n2 :: ':' :: s1 :: s2 :: rest =>
    allDigits [y1, y2, y3, y4, m1, m2, d1, d2, h1, h2, n1, n2, s1, s2] &&
      secondsTail rest
  | _ => false

/-- Characters allowed in a URL scheme after its first letter. -/
def schemeChar (c : Char) : Bool :=
  c.isAlpha || c.isDigit || c = '+' || c = '-' || c = '.'

/-- Scans for the colon ending a URL scheme. -/
def schemeColon : List Char → Bool
  | [] => false
  | ':' :: _ => true
  | c :: cs => schemeChar c && schemeColon cs

/-- Models zod's `z.string().url()` check (`new URL(value)` succeeding): a
leading RFC 3986 scheme — a letter followed by scheme characters — ending
in a colon. -/
def isURL (s : String) : Bool :=
  match s.toList with
  | [] => false
  | c :: cs => c.isAlpha && schemeColon cs

/-- A fully validated job listing (`JobListing`).  Field order follows
`requiredFields`; `extraFields` is the JS object, kept as an assoc list in
insertion order with distinct keys. -/
structure JobListing where
  company : String
  jobTitle : String
  location : String
  appStatus : String
  url : String
  notes : String
  dateSubmitted : String
  dateLastModified : String
  extraFields : List (String × Cell)
deriving DecidableEq

/-- The transient `PartialJobListing`: every required field optional,
`extraFields` always initialised. -/
structure PartialRecord where
  company : Option String
  jobTitle : Option String
  location : Option String
  appStatus : Option String
  url : Option String
  notes : Option String
  dateSubmitted : Option String
  dateLastModified : Option String
  extraFields : List (String × Cell)
deriving DecidableEq

/-- The record every row starts from: `{ extraFields: {} }`. -/
def emptyRecord : PartialRecord :=
  ⟨none, none, none, none, none, none, none, none, []⟩

/-- JS object assignment `record[key] = value` for a required field. -/
def setReq (rec : PartialRecord) (k : String) (v : String) : PartialRecord :=
  if k = "company" then { rec with company := some v }
  else if k = "jobTitle" then { rec with jobTitle := some v }
  else if k = "location" then { rec with location := some v }
  else if k = "appStatus" then { rec with appStatus := some v }
  else if k = "url" then { rec with url := some v }
  else if k = "notes" then { rec with notes := some v }
  else if k = "dateSubmitted" then { rec with dateSubmitted := some v }
  else if k = "dateLastModified" then { rec with dateLastModified := some v }
  else rec

/-- Reads the required field named `k` from a partial record. -/
def reqGet (rec : PartialRecord) (k : String) : Option String :=
  if k = "company" then rec.company
  else if k = "jobTitle" then rec.jobTitle
  else if k = "location" then rec.location
  else if k = "appStatus" then rec.appStatus
  else if k = "url" then rec.url
  else if k = "notes" then rec.notes
  else if k = "dateSubmitted" then rec.dateSubmitted
  else if k = "dateLastModified" then rec.dateLastModified
  else none

/-- JS object assignment `extraFields[key] = value`: overwrite in place if
the key exists, else append. -/
def objSet : List (String × Cell) → String → Cell → List (String × Cell)
  | [], k, v => [(k, v)]
  | (k0, v0) :: rest, k, v =>
    if k0 = k then (k0, v) :: rest else (k0, v0) :: objSet rest k v

/-- JS object property read `extraFields[key]`. -/
def extLookup : List (String × Cell) → String → Option Cell
  | [], _ => none
  | (k0, v0) :: rest, k => if k0 = k then some v0 else extLookup rest k

/-- The column name at an index: `fieldIndices.get(index) ?? ""`. -/
def keyAt : List String → Nat → String
  | [], _ => ""
  | f :: _, 0 => f
  | _ :: fs, n + 1 => keyAt fs n

/-- The column name at an index without the `?? ""` default
(the `helpers.ts` variant keeps the raw `Map.get` result). -/
def keyAtO : List String → Nat → Option String
  | [], _ => none
  | f :: _, 0 => some f
  | _ :: fs, n + 1 => keyAtO fs n

/-- One iteration of the record-building loop of `recordsTransformer`:
required columns take textual cells only, everything else is bucketed
into `extraFields` under the raw column name. -/
def buildStep (fields : List String) (rec : PartialRecord) (idx : Nat)
    (cell : Cell) : PartialRecord :=
  if isRequiredField (keyAt fields idx) then
    match cell with
    | Cell.str s => setReq rec (keyAt fields idx) s
    | _ => rec
  else
    { rec with extraFields := objSet rec.extraFields (keyAt fields idx) cell }

/-- The loop `for (const [index, cellValue] of row.entries())`. -/
def buildGo (fields : List String) (idx : Nat) (rec : PartialRecord) :
    List Cell → PartialRecord
  | [] => rec
  | c :: cs => buildGo fields (idx + 1) (buildStep fields rec idx c) cs

/-- Builds one partial record from a data row (body of the first
`recordsTransformer` transform). -/
def buildRecord (fields : List String) (row : List Cell) : PartialRecord :=
  buildGo fields 0 emptyRecord row

/-- The `jobListingValidator` schema applied to a partial record: all nine
properties must be present; company, jobTitle and appStatus non-empty; the
two dates in the strict datetime format; url empty or well-formed.
`extraFields` already holds cells by construction, so `z.record` of the
cell validator always passes on it. -/
def validateListing (rec : PartialRecord) : Option JobListing :=
  match rec.company, rec.jobTitle, rec.location, rec.appStatus, rec.url,
      rec.notes, rec.dateSubmitted, rec.dateLastModified with
  | some company, some jobTitle, some location, some appStatus, some url,
      some notes, some ds, some dlm =>
    if company ≠ "" ∧ jobTitle ≠ "" ∧ appStatus ≠ "" ∧
        isDatetime ds = true ∧ isDatetime dlm = true ∧
        (url = "" ∨ isURL url = true) then
      some ⟨company, jobTitle, location, appStatus, url, notes, ds, dlm,
            rec.extraFields⟩
    else none
  | _, _, _, _, _, _, _, _ => none

/-- Builds and validates one row; a row contributes `some` listing or is
dropped. -/
def rowOutput (fields : List String) (row : List Cell) : Option JobListing :=
  validateListing (buildRecord fields row)

/-- The second `recordsTransformer` transform: map rows to records, then
`flatMap` the per-record validation, keeping successes. -/
def recordsOut (fields : List String) (rows : List (List Cell)) :
    List JobListing :=
  (rows.map (buildRecord fields)).flatMap
    (fun rec =>
      match validateListing rec with
      | some d => [d]
      | none => [])

/-- The `jsonSheetRowValidator` schema applied to one JSON value: an array of scalar
cells, non-empty and with at least `requiredFields.length` entries. -/
def rowFromJson (v : Json) : Option (List Cell) :=
  match v with
  | Json.arr xs =>
    match mapO jsonToCell xs with
    | some cs => if cs ≠ [] ∧ 8 ≤ cs.length then some cs else none
    | none => none
  | _ => none

/-- The `initialResponseProcessor` stage: envelope validation plus the row split.
Requires an object with `majorDimension: "ROWS"` and a `values` table of
at least two valid rows, then splits header from data rows. -/
def stage1 (j : Json) : Option (List Cell × List (List Cell)) :=
  match j with
  | Json.obj kvs =>
    match jLookup kvs "majorDimension" with
    | some (Json.str md) =>
      if md = "ROWS" then
        match jLookup kvs "values" with
        | some (Json.arr vs) =>
          match mapO rowFromJson vs with
          | some rows =>
            if 2 ≤ rows.length then
              match rows with
              | r0 :: rest => some (r0, rest)
              | [] => none
            else none
          | none => none
        | _ => none
      else none
    | _ => none
  | _ => none

/-- Re-check of a data row by `apiDataValidator`'s `rows` schema (the rows
are already cell lists at this point; only the shape checks remain). -/
def rowRecheck (r : List Cell) : Option (List Cell) :=
  if r ≠ [] ∧ 8 ≤ r.length then some r else none

/-- The `apiDataValidator` stage: header cells must all be strings and satisfy
`fieldsOk`; data rows are re-validated. -/
def stage2 (fc : List Cell) (rows : List (List Cell)) :
    Option (List String × List (List Cell)) :=
  match mapO cellString fc with
  | some fs =>
    if fieldsOk fs = true then
      match mapO rowRecheck rows with
      | some rs => some (fs, rs)
      | none => none
    else none
  | none => none

/-- The function `parseJobListings` from `src/helpers/jobListingJson.ts`: run the
pipeline, return its listings on success and `[]` on any validation
failure. -/
def parseJobListings (j : Json) : List JobListing :=
  match stage1 j with
  | none => []
  | some (fc, rows) =>
    match stage2 fc rows with
    | none => []
    | some (fs, rs) => recordsOut fs rs

/-- The pipeline with zod's internal fault channel made explicit:
`z.pipeline(...).parse` throws a `ZodError` on validation failure, which
we model as `Except.error`. -/
def pipelineRun (j : Json) : Except String (List JobListing) :=
  match stage1 j with
  | none => Except.error "initialResponseProcessor rejected the payload"
  | some (fc, rows) =>
    match stage2 fc rows with
    | none => Except.error "apiDataValidator rejected the payload"
    | some (fs, rs) => Except.ok (recordsOut fs rs)

/-- The function `parseJobListings` seen through the fault channel: `safeParse` catches
the internal `ZodError` and the function returns `[]` instead of
propagating the fault. -/
def parseJobListingsE (j : Json) : Except String (List JobListing) :=
  match pipelineRun j with
  | Except.ok l => Except.ok l
  | Except.error _ => Except.ok []

/-- Wraps a cell table as the Google-Sheets payload shape
`{ majorDimension: "ROWS", values: [...] }`. -/
def mkSheet (vs : List (List Cell)) : Json :=
  Json.obj
    [("majorDimension", Json.str "ROWS"),
     ("values", Json.arr (vs.map (fun r => Json.arr (r.map cellToJson))))]

/-- The `z.string()` check on a JSON value (header names of the pre-split
`apiDataSchema`). -/
def jsonToStr : Json → Option String
  | Json.str s => some s
  | _ => none

/-- The `apiDataSchema` shared by `src/unnamed/part_002` and
`src/helpers.ts/jobListingJson.ts`: an object with a `fields` array of
header strings satisfying the header refinements and a `rows` array of
valid sheet rows. -/
def apiDataParse (j : Json) : Option (List String × List (List Cell)) :=
  match j with
  | Json.obj kvs =>
    match jLookup kvs "fields", jLookup kvs "rows" with
    | some (Json.arr fjs), some (Json.arr rjs) =>
      match mapO jsonToStr fjs with
      | some fs =>
        if fieldsOk fs = true then
          match mapO rowFromJson rjs with
          | some rs => some (fs, rs)
          | none => none
        else none
      | none => none
    | _, _ => none
  | _ => none

/-- The function `parseJobListings` from `src/unnamed/part_002`: same record builder as
the main pipeline, applied to the pre-split `fields`/`rows` payload. -/
def parseJobListings2 (j : Json) : List JobListing :=
  match apiDataParse j with
  | none => []
  | some (fs, rs) => recordsOut fs rs

/-- One loop iteration of the `helpers.ts` variant's transformer: the raw
`Map.get` result is kept (no `?? ""`), and a non-required cell is stored
only when its column is literally named `extraFields`. -/
def buildStepB (fields : List String) (rec : PartialRecord) (idx : Nat)
    (cell : Cell) : PartialRecord :=
  match keyAtO fields idx with
  | some k =>
    if isRequiredField k then
      match cell with
      | Cell.str s => setReq rec k s
      | _ => rec
    else if k = "extraFields" then
      { rec with extraFields := objSet rec.extraFields k cell }
    else rec
  | none => rec

/-- The `helpers.ts` variant's row loop. -/
def buildGoB (fields : List String) (idx : Nat) (rec : PartialRecord) :
    List Cell → PartialRecord
  | [] => rec
  | c :: cs => buildGoB fields (idx + 1) (buildStepB fields rec idx c) cs

/-- Builds one partial record in the `helpers.ts` variant. -/
def buildRecordB (fields : List String) (row : List Cell) : PartialRecord :=
  buildGoB fields 0 emptyRecord row

/-- The `helpers.ts` variant's map-then-flatMap over rows. -/
def recordsOutB (fields : List String) (rows : List (List Cell)) :
    List JobListing :=
  (rows.map (buildRecordB fields)).flatMap
    (fun rec =>
      match validateListing rec with
      | some d => [d]
      | none => [])

/-- The function `parseJobListings` from `src/helpers.ts/jobListingJson.ts`. -/
def parseJobListingsB (j : Json) : List JobListing :=
  match apiDataParse j with
  | none => []
  | some (fs, rs) => recordsOutB fs rs

/-- Restriction of a listing's extra data to the single key
`extraFields` — the exact information the `helpers.ts` variant retains. -/
def restrictExtra (l : JobListing) : JobListing :=
  ⟨l.company, l.jobTitle, l.location, l.appStatus, l.url, l.notes,
   l.dateSubmitted, l.dateLastModified,
   l.extraFields.filter (fun p => p.1 = "extraFields")⟩

/-- Claim C2's description of the envelope stage, taken from its words: an
object with a `values` table of at least two rows, every row non-empty and
all-scalar.  (It omits the `majorDimension` literal and the per-row
minimum length that the code also demands.) -/
def EnvClaimPred (j : Json) : Prop :=
  ∃ kvs vs, j = Json.obj kvs ∧
    jLookup kvs "values" = some (Json.arr vs) ∧ 2 ≤ vs.length ∧
    ∀ v ∈ vs, ∃ cs : List Cell, v = Json.arr (cs.map cellToJson) ∧ cs ≠ []

/-- The envelope condition the code actually enforces: additionally the
`majorDimension: "ROWS"` literal and at least 8 cells in every row. -/
def EnvAccept (j : Json) : Prop :=
  ∃ kvs vs, j = Json.obj kvs ∧
    jLookup kvs "majorDimension" = some (Json.str "ROWS") ∧
    jLookup kvs "values" = some (Json.arr vs) ∧ 2 ≤ vs.length ∧
    ∀ v ∈ vs, ∃ cs : List Cell, v = Json.arr (cs.map cellToJson) ∧
      8 ≤ cs.length

/-- Element at an index with an explicit default (JS indexing). -/
def atD : List α → Nat → α → α
  | [], _, d => d
  | a :: _, 0, _ => a
  | _ :: as, n + 1, d => atD as n d

/-- Replacing the element at an index (used to state row corruption). -/
def setL : List α → Nat → α → List α
  | [], _, _ => []
  | _ :: as, 0, b => b :: as
  | a :: as, n + 1, b => a :: setL as n b

/-- Removing the element at an index (used to state row removal). -/
def eraseL : List α → Nat → List α
  | [], _ => []
  | _ :: as, 0 => as
  | a :: as, n + 1 => a :: eraseL as n

/-! ### Basic list facts -/

theorem length_setL (as : List α) (n : Nat) (b : α) :
    (setL as n b).length = as.length := by
  induction as generalizing n with
  | nil => rfl
  | cons a as ih => cases n with
    | zero => rfl
    | succ n => simpa [setL] using ih n

theorem atD_setL_ne (as : List α) (i j : Nat) (b : α) (d : α) (h : i ≠ j) :
    atD (setL as i b) j d = atD as j d := by
  induction as generalizing i j with
  | nil => cases i <;> rfl
  | cons a as ih =>
    cases i with
    | zero => cases j with
      | zero => exact absurd rfl h
      | succ j => rfl
    | succ i => cases j with
      | zero => rfl
      | succ j => exact ih i j (fun hc => h (by omega))

theorem mem_setL (as : List α) (i : Nat) (b x : α) (h : x ∈ setL as i b) :
    x = b ∨ x ∈ as := by
  induction as generalizing i with
  | nil => cases i <;> simp [setL] at h
  | cons a as ih =>
    cases i with
    | zero =>
      rcases List.mem_cons.mp h with h | h
      · exact Or.inl h
      · exact Or.inr (List.mem_cons_of_mem _ h)
    | succ i =>
      rcases List.mem_cons.mp h with h | h
      · exact Or.inr (h ▸ List.mem_cons_self _ _)
      · rcases ih i h with h | h
        · exact Or.inl h
        · exact Or.inr (List.mem_cons_of_mem _ h)

theorem setL_ne_nil (as : List α) (i : Nat) (b : α) (h : as ≠ []) :
    setL as i b ≠ [] := by
  cases as with
  | nil => exact absurd rfl h
  | cons a as => cases i <;> simp [setL]

theorem mem_eraseL (as : List α) (i : Nat) (x : α) (h : x ∈ eraseL as i) :
    x ∈ as := by
  induction as generalizing i with
  | nil => cases i <;> simp [eraseL] at h
  | cons a as ih =>
    cases i with
    | zero => exact List.mem_cons_of_mem _ h
    | succ i =>
      rcases List.mem_cons.mp h with h | h
      · exact h ▸ List.mem_cons_self _ _
      · exact List.mem_cons_of_mem _ (ih i h)

theorem length_eraseL (as : List α) (i : Nat) (h : i < as.length) :
    (eraseL as i).length + 1 = as.length := by
  induction as generalizing i with
  | nil => simp at h
  | cons a as ih =>
    cases i with
    | zero => rfl
    | succ i => simpa [eraseL] using ih i (by simpa using h)

theorem atD_mem (as : List α) (j : Nat) (d : α) (h : j < as.length) :
    atD as j d ∈ as := by
  induction as generalizing j with
  | nil => simp at h
  | cons a as ih =>
    cases j with
    | zero => exact List.mem_cons_self _ _
    | succ j => exact List.mem_cons_of_mem _ (ih j (by simpa using h))

theorem atD_setL_mem_eraseL (as : List α) (i j : Nat) (d : α) (hij : i ≠ j)
    (hj : j < as.length) : atD as j d ∈ eraseL as i := by
  induction as generalizing i j with
  | nil => simp at hj
  | cons a as ih =>
    cases i with
    | zero =>
      cases j with
      | zero => exact absurd rfl hij
      | succ j => exact atD_mem as j d (by simpa using hj)
    | succ i =>
      cases j with
      | zero => exact List.mem_cons_self _ _
      | succ j =>
        exact List.mem_cons_of_mem _
          (ih i j (fun hc => hij (by omega)) (by simpa using hj))

/-! ### `mapO` facts -/

theorem mapO_length (f : α → Option β) (l : List α) (bs : List β)
    (h : mapO f l = some bs) : bs.length = l.length := by
  induction l generalizing bs with
  | nil => simp [mapO] at h; simp [← h]
  | cons a as ih =>
    simp only [mapO] at h
    rcases ha : f a with _ | b <;> rw [ha] at h
    · simp at h
    · rcases has : mapO f as with _ | bs0 <;> rw [has] at h
      · simp at h
      · simp only [Option.some.injEq] at h
        simp [← h, ih bs0 has]

theorem mapO_some_of_all (f : α → Option β) (l : List α)
    (h : ∀ a ∈ l, (f a).isSome) : ∃ bs, mapO f l = some bs := by
  induction l with
  | nil => exact ⟨[], rfl⟩
  | cons a as ih =>
    rcases ih (fun x hx => h x (List.mem_cons_of_mem _ hx)) with ⟨bs, hbs⟩
    rcases ha : f a with _ | b
    · have := h a (List.mem_cons_self _ _)
      rw [ha] at this; simp at this
    · exact ⟨b :: bs, by simp [mapO, ha, hbs]⟩

theorem mapO_isSome_all (f : α → Option β) (l : List α) (bs : List β)
    (h : mapO f l = some bs) : ∀ a ∈ l, (f a).isSome := by
  induction l generalizing bs with
  | nil => simp
  | cons a as ih =>
    intro x hx
    simp only [mapO] at h
    rcases ha : f a with _ | b <;> rw [ha] at h
    · simp at h
    · rcases has : mapO f as with _ | bs0 <;> rw [has] at h
      · simp at h
      · rcases List.mem_cons.mp hx with hx | hx
        · subst hx; simp [ha]
        · exact ih bs0 has x hx

theorem mapO_cellString_strs (fc : List Cell) (fs : List String)
    (h : mapO cellString fc = some fs) : fc = fs.map Cell.str := by
  induction fc generalizing fs with
  | nil => simp [mapO] at h; simp [← h]
  | cons c cs ih =>
    simp only [mapO] at h
    rcases hc : cellString c with _ | s <;> rw [hc] at h
    · simp at h
    · rcases hcs : mapO cellString cs with _ | ss <;> rw [hcs] at h
      · simp at h
      · simp only [Option.some.injEq] at h
        cases c with
        | str s0 =>
          simp only [cellString, Option.some.injEq] at hc
          simp [← h, ← hc, ih ss hcs]
        | num n => simp [cellString] at hc
        | bool b => simp [cellString] at hc

theorem mapO_map_some (f : α → Option β) (g : β → α) (l : List β)
    (h : ∀ b, f (g b) = some b) : mapO f (l.map g) = some l := by
  induction l with
  | nil => rfl
  | cons b bs ih => simp [mapO, h b, ih]

theorem distinctL_nodup (fs : List String) (h : distinctL fs = true) :
    fs.Nodup := by
  induction fs with
  | nil => exact List.nodup_nil
  | cons x xs ih =>
    simp only [distinctL, Bool.and_eq_true, decide_eq_true_eq] at h
    exact List.nodup_cons.mpr ⟨h.1, ih h.2⟩

theorem nodup_distinctL (fs : List String) (h : fs.Nodup) :
    distinctL fs = true := by
  induction fs with
  | nil => rfl
  | cons x xs ih =>
    rcases List.nodup_cons.mp h with ⟨hx, hxs⟩
    simp [distinctL, hx, ih hxs]

/-! ### Stage characterizations -/

theorem jsonToCell_cellToJson (c : Cell) : jsonToCell (cellToJson c) = some c := by
  cases c <;> rfl

theorem rowFromJson_mk (r : List Cell) :
    rowFromJson (Json.arr (r.map cellToJson)) =
      if r ≠ [] ∧ 8 ≤ r.length then some r else none := by
  simp [rowFromJson, mapO_map_some jsonToCell cellToJson r jsonToCell_cellToJson]

theorem rowFromJson_mk_of_len (r : List Cell) (h : 8 ≤ r.length) :
    rowFromJson (Json.arr (r.map cellToJson)) = some r := by
  have hne : r ≠ [] := by
    cases r with
    | nil => simp at h
    | cons a as => simp
  simp [rowFromJson_mk, hne, h]

theorem stage1_mkSheet (v0 : List Cell) (rest : List (List Cell))
    (h0 : 8 ≤ v0.length) (hr : ∀ r ∈ rest, 8 ≤ r.length) (hne : rest ≠ []) :
    stage1 (mkSheet (v0 :: rest)) = some (v0, rest) := by
  have hmap : mapO rowFromJson
      ((v0 :: rest).map (fun r => Json.arr (r.map cellToJson))) =
      some (v0 :: rest) := by
    have : ∀ vs : List (List Cell), (∀ r ∈ vs, 8 ≤ r.length) →
        mapO rowFromJson (vs.map (fun r => Json.arr (r.map cellToJson))) =
          some vs := by
      intro vs
      induction vs with
      | nil => intro _; rfl
      | cons a as ih =>
        intro hall
        have ha := rowFromJson_mk_of_len a (hall a (List.mem_cons_self _ _))
        have has := ih (fun x hx => hall x (List.mem_cons_of_mem _ hx))
        simp [mapO, ha, has]
    exact this (v0 :: rest) (by
      intro r hrr
      rcases List.mem_cons.mp hrr with h | h
      · exact h ▸ h0
      · exact hr r h)
  have hlen : 2 ≤ (v0 :: rest).length := by
    cases rest with
    | nil => exact absurd rfl hne
    | cons b bs => simp only [List.length_cons]; omega
  simp only [List.map_cons] at hmap
  simp [stage1, mkSheet, jLookup, hmap, hlen, hne]

theorem mapO_rowRecheck_self (rows : List (List Cell))
    (h : ∀ r ∈ rows, 8 ≤ r.length) : mapO rowRecheck rows = some rows := by
  induction rows with
  | nil => rfl
  | cons r rs ih =>
    have h8 := h r (List.mem_cons_self _ _)
    have hne : r ≠ [] := by
      cases r with
      | nil => simp at h8
      | cons a as => simp
    simp [mapO, rowRecheck, hne, h8,
      ih (fun x hx => h x (List.mem_cons_of_mem _ hx))]

theorem mapO_rowRecheck_inv (rows rs : List (List Cell))
    (h : mapO rowRecheck rows = some rs) :
    rs = rows ∧ ∀ r ∈ rows, r ≠ [] ∧ 8 ≤ r.length := by
  induction rows generalizing rs with
  | nil =>
    simp only [mapO, Option.some.injEq] at h
    subst h
    exact ⟨rfl, by simp⟩
  | cons r rows ih =>
    simp only [mapO] at h
    rcases hr : rowRecheck r with _ | r0 <;> rw [hr] at h
    · simp at h
    · rcases hrs : mapO rowRecheck rows with _ | rs0 <;> rw [hrs] at h
      · simp at h
      · simp only [Option.some.injEq] at h
        rcases ih rs0 hrs with ⟨heq, hall⟩
        unfold rowRecheck at hr
        by_cases hc : r ≠ [] ∧ 8 ≤ r.length
        · rw [if_pos hc] at hr
          simp only [Option.some.injEq] at hr
          refine ⟨by rw [← h, heq, hr], ?_⟩
          intro x hx
          rcases List.mem_cons.mp hx with hx | hx
          · exact hx ▸ hc
          · exact hall x hx
        · rw [if_neg hc] at hr; simp at hr

theorem stage2_some_inv (fc : List Cell) (rows : List (List Cell))
    (fs : List String) (rs : List (List Cell))
    (h : stage2 fc rows = some (fs, rs)) :
    mapO cellString fc = some fs ∧ fieldsOk fs = true ∧ rs = rows ∧
      ∀ r ∈ rows, r ≠ [] ∧ 8 ≤ r.length := by
  unfold stage2 at h
  split at h
  · split at h
    · split at h
      · rename_i x1 fs0 hm hok x2 rs0 hr
        injection h with h
        rw [Prod.mk.injEq] at h
        obtain ⟨hfs, hrs⟩ := h
        subst hfs; subst hrs
        rcases mapO_rowRecheck_inv rows rs0 hr with ⟨heq, hall⟩
        exact ⟨hm, hok, heq, hall⟩
      · exact Option.noConfusion h
    · exact Option.noConfusion h
  · exact Option.noConfusion h

/-- Everything needed for the whole table `hdr :: rows` to pass the
envelope and header stages, with `fs` the decoded header names. -/
def tableOk (hdr : List Cell) (rows : List (List Cell))
    (fs : List String) : Prop :=
  mapO cellString hdr = some fs ∧ fieldsOk fs = true ∧ rows ≠ [] ∧
    ∀ r ∈ rows, 8 ≤ r.length

instance (hdr : List Cell) (rows : List (List Cell)) (fs : List String) :
    Decidable (tableOk hdr rows fs) := by
  unfold tableOk
  infer_instance

theorem fieldsOk_inv (fs : List String) (h : fieldsOk fs = true) :
    8 ≤ fs.length ∧ fs.Nodup ∧ ∀ n ∈ requiredFields, n ∈ fs := by
  simp only [fieldsOk, Bool.and_eq_true, decide_eq_true_eq] at h
  exact ⟨h.1.1, distinctL_nodup fs h.1.2, h.2⟩

theorem stage2_of_tableOk (hdr : List Cell) (rows : List (List Cell))
    (fs : List String) (h : tableOk hdr rows fs) :
    stage2 hdr rows = some (fs, rows) := by
  rcases h with ⟨hm, hok, _, hlen⟩
  simp [stage2, hm, hok, mapO_rowRecheck_self rows hlen]

theorem parse_mkSheet (hdr : List Cell) (rows : List (List Cell))
    (fs : List String) (h : tableOk hdr rows fs) :
    parseJobListings (mkSheet (hdr :: rows)) = recordsOut fs rows := by
  have hlen8 : 8 ≤ hdr.length := by
    have h1 := (fieldsOk_inv fs h.2.1).1
    have h2 := mapO_length cellString hdr fs h.1
    omega
  have hs1 := stage1_mkSheet hdr rows hlen8 h.2.2.2 h.2.2.1
  have hs2 := stage2_of_tableOk hdr rows fs h
  simp [parseJobListings, hs1, hs2]

/-! ### The per-row shape of the output -/

theorem recordsOut_eq (fs : List String) (rows : List (List Cell)) :
    recordsOut fs rows = rows.filterMap (rowOutput fs) := by
  induction rows with
  | nil => rfl
  | cons r rs ih =>
    simp only [recordsOut, List.map_cons, List.flatMap_cons] at *
    rw [List.filterMap_cons]
    rcases hv : validateListing (buildRecord fs r) with _ | d <;>
      simp [rowOutput, hv, ih]

theorem filterMap_eraseL_of_none (f : α → Option β) (l : List α) (i : Nat)
    (d : α) (hi : i < l.length) (h : f (atD l i d) = none) :
    l.filterMap f = (eraseL l i).filterMap f := by
  induction l generalizing i with
  | nil => simp at hi
  | cons a as ih =>
    cases i with
    | zero =>
      simp only [atD] at h
      simp [eraseL, List.filterMap_cons, h]
    | succ i =>
      simp only [atD] at h
      have := ih i (by simpa using hi) h
      simp [eraseL, List.filterMap_cons, this]

theorem validateListing_props (rec : PartialRecord) (l : JobListing)
    (h : validateListing rec = some l) :
    l.company ≠ "" ∧ l.jobTitle ≠ "" ∧ l.appStatus ≠ "" ∧
      isDatetime l.dateSubmitted = true ∧
      isDatetime l.dateLastModified = true ∧
      (l.url = "" ∨ isURL l.url = true) ∧
      l.extraFields = rec.extraFields := by
  unfold validateListing at h
  split at h
  · split at h
    · rename_i hcond
      injection h with h
      subst h
      exact ⟨hcond.1, hcond.2.1, hcond.2.2.1, hcond.2.2.2.1,
        hcond.2.2.2.2.1, hcond.2.2.2.2.2, rfl⟩
    · exact Option.noConfusion h
  · exact Option.noConfusion h

theorem parse_stage1_none (j : Json) (h1 : stage1 j = none) :
    parseJobListings j = [] := by
  simp [parseJobListings, h1]

theorem parse_stage2_none (j : Json) (fc : List Cell)
    (rows : List (List Cell)) (h1 : stage1 j = some (fc, rows))
    (h2 : stage2 fc rows = none) : parseJobListings j = [] := by
  simp [parseJobListings, h1, h2]

theorem parse_stages_some (j : Json) (fc : List Cell)
    (rows : List (List Cell)) (fs : List String) (rs : List (List Cell))
    (h1 : stage1 j = some (fc, rows)) (h2 : stage2 fc rows = some (fs, rs)) :
    parseJobListings j = recordsOut fs rs := by
  simp [parseJobListings, h1, h2]

theorem parse_ne_nil_inv (j : Json) (h : parseJobListings j ≠ []) :
    ∃ fc rows fs rs, stage1 j = some (fc, rows) ∧
      stage2 fc rows = some (fs, rs) ∧
      parseJobListings j = recordsOut fs rs := by
  rcases h1 : stage1 j with _ | ⟨fc, rows⟩
  · exact absurd (parse_stage1_none j h1) h
  · rcases h2 : stage2 fc rows with _ | ⟨fs, rs⟩
    · exact absurd (parse_stage2_none j fc rows h1 h2) h
    · exact ⟨fc, rows, fs, rs, rfl, h2, parse_stages_some j fc rows fs rs h1 h2⟩

theorem mem_parse_inv (j : Json) (l : JobListing)
    (h : l ∈ parseJobListings j) :
    ∃ fs r, validateListing (buildRecord fs r) = some l := by
  have hne : parseJobListings j ≠ [] := by
    intro he
    rw [he] at h
    exact absurd h (List.not_mem_nil l)
  obtain ⟨fc, rows, fs, rs, _, _, hp⟩ := parse_ne_nil_inv j hne
  rw [hp, recordsOut_eq] at h
  obtain ⟨r, _, ho⟩ := List.mem_filterMap.mp h
  exact ⟨fs, r, ho⟩

/-! ### Concrete inputs used by counterexamples and witnesses -/

/-- A valid datetime literal. -/
def dt1 : String := "2024-01-01T00:00:00.000Z"

/-- A second valid datetime literal. -/
def dt2 : String := "2024-01-02T00:00:00.000Z"

/-- The happy-path data row of spec §8 scenario A (eight required values
plus one extra `source` cell). -/
def goodRow : List Cell :=
  [Cell.str "Acme", Cell.str "Engineer", Cell.str "Remote",
   Cell.str "Applied", Cell.str "https://acme.example/job", Cell.str "",
   Cell.str dt1, Cell.str dt2, Cell.str "LinkedIn"]

/-- Scenario A's header: the eight required names plus `source`. -/
def headerCells : List Cell := (requiredFields ++ ["source"]).map Cell.str

/-- Scenario A's full payload. -/
def happyJson : Json := mkSheet [headerCells, goodRow]

/-- The listing scenario A parses to. -/
def happyListing : JobListing :=
  ⟨"Acme", "Engineer", "Remote", "Applied", "https://acme.example/job", "",
   dt1, dt2, [("source", Cell.str "LinkedIn")]⟩

/-- A plain 8-column header of exactly the required fields. -/
def hdr8 : List Cell := requiredFields.map Cell.str

/-- A valid 8-cell data row. -/
def rowA : List Cell :=
  [Cell.str "A Co", Cell.str "Dev", Cell.str "X", Cell.str "Applied",
   Cell.str "", Cell.str "", Cell.str dt1, Cell.str dt2]

/-- A second valid 8-cell data row. -/
def rowB : List Cell :=
  [Cell.str "B Co", Cell.str "QA", Cell.str "Y", Cell.str "Applied",
   Cell.str "", Cell.str "", Cell.str dt1, Cell.str dt2]

/-- The listing `rowA` parses to under `hdr8`. -/
def listA : JobListing := ⟨"A Co", "Dev", "X", "Applied", "", "", dt1, dt2, []⟩

/-- The listing `rowB` parses to under `hdr8`. -/
def listB : JobListing := ⟨"B Co", "QA", "Y", "Applied", "", "", dt1, dt2, []⟩

/-- Row `rowA` with its url cell replaced by a malformed URL. -/
def badUrlRow : List Cell :=
  [Cell.str "C Co", Cell.str "Dev", Cell.str "X", Cell.str "Applied",
   Cell.str "not-a-url", Cell.str "", Cell.str dt1, Cell.str dt2]

/-! ### Claim theorems -/

/-- C1: for every input value `apiData`, of any shape whatsoever,
`parseJobListings(apiData)` returns a (possibly empty) ordered array of
JobListing and never raises a fault to the caller: seen through the
explicit fault channel, the result is always `Except.ok` of the parsed
array, for every input — including those the internal pipeline rejects. -/
theorem c1_no_fault (j : Json) :
    parseJobListingsE j = Except.ok (parseJobListings j) := by
  rcases h1 : stage1 j with _ | ⟨fc, rows⟩
  · simp [parseJobListingsE, pipelineRun, parseJobListings, h1]
  · rcases h2 : stage2 fc rows with _ | ⟨fs, rs⟩ <;>
      simp [parseJobListingsE, pipelineRun, parseJobListings, h1, h2]

/-- C3: `parseJobListings` yields a non-empty result only if the header
row has at least 8 entries, contains no duplicates, and contains every one
of the 8 required field names; contrapositively, a header violating any of
these forces an empty result regardless of the data rows. -/
theorem c3_header_gate (j : Json) (h : parseJobListings j ≠ []) :
    ∃ fc rows, stage1 j = some (fc, rows) ∧ 8 ≤ fc.length ∧ fc.Nodup ∧
      ∀ n ∈ requiredFields, Cell.str n ∈ fc := by
  obtain ⟨fc, rows, fs, rs, h1, h2, _⟩ := parse_ne_nil_inv j h
  obtain ⟨hm, hok, _, _⟩ := stage2_some_inv _ _ _ _ h2
  obtain ⟨hlen, hnd, hreq⟩ := fieldsOk_inv fs hok
  have hfc := mapO_cellString_strs fc fs hm
  subst hfc
  refine ⟨fs.map Cell.str, rows, h1, by simpa using hlen, ?_, ?_⟩
  · exact hnd.map (fun a b hab => Cell.str.inj hab)
  · intro n hn
    exact List.mem_map_of_mem Cell.str (hreq n hn)

/-- Witness for C3: the scenario-A payload parses non-empty, and its
header indeed satisfies the three conditions. -/
theorem c3_header_gate_w :
    parseJobListings happyJson ≠ [] ∧
      (∃ fc rows, stage1 happyJson = some (fc, rows) ∧ 8 ≤ fc.length ∧
        fc.Nodup ∧ ∀ n ∈ requiredFields, Cell.str n ∈ fc) :=
  ⟨by decide, c3_header_gate happyJson (by decide)⟩

/-- C6: every listing in the output satisfies all per-field constraints
simultaneously: non-empty company, jobTitle and appStatus, strict
datetimes, and an empty-or-well-formed url (location and notes are plain
strings by construction, and `extraFields` maps names to scalar cells by
construction). -/
theorem c6_all_constraints (j : Json) (l : JobListing)
    (h : l ∈ parseJobListings j) :
    l.company ≠ "" ∧ l.jobTitle ≠ "" ∧ l.appStatus ≠ "" ∧
      isDatetime l.dateSubmitted = true ∧
      isDatetime l.dateLastModified = true ∧
      (l.url = "" ∨ isURL l.url = true) := by
  obtain ⟨fs, r, ho⟩ := mem_parse_inv j l h
  obtain ⟨p1, p2, p3, p4, p5, p6, _⟩ := validateListing_props _ _ ho
  exact ⟨p1, p2, p3, p4, p5, p6⟩

/-- Witness for C6: the scenario-A listing is in the output and satisfies
the constraints. -/
theorem c6_all_constraints_w :
    happyListing ∈ parseJobListings happyJson ∧
      (happyListing.company ≠ "" ∧ happyListing.jobTitle ≠ "" ∧
        happyListing.appStatus ≠ "" ∧
        isDatetime happyListing.dateSubmitted = true ∧
        isDatetime happyListing.dateLastModified = true ∧
        (happyListing.url = "" ∨ isURL happyListing.url = true)) :=
  ⟨by decide, c6_all_constraints happyJson happyListing (by decide)⟩

/-- C8: on a table that passes envelope and header validation, a data row
whose record fails field validation (for example a malformed url) is
dropped row-locally: the output equals the per-row outputs of the
remaining rows, in their original order. -/
theorem c8_row_local (hdr : List Cell) (rows : List (List Cell))
    (fs : List String) (i : Nat) (h : tableOk hdr rows fs)
    (hi : i < rows.length) (hbad : rowOutput fs (atD rows i []) = none) :
    parseJobListings (mkSheet (hdr :: rows)) =
      (eraseL rows i).filterMap (rowOutput fs) ∧
    parseJobListings (mkSheet (hdr :: rows)) =
      rows.filterMap (rowOutput fs) := by
  have hp := parse_mkSheet hdr rows fs h
  rw [recordsOut_eq] at hp
  exact ⟨hp.trans (filterMap_eraseL_of_none _ rows i [] hi hbad), hp⟩

/-- Witness for C8: a table holding one valid row and one row with url
`not-a-url`; the bad row is dropped and the valid row survives. -/
theorem c8_row_local_w :
    tableOk hdr8 [rowA, badUrlRow] requiredFields ∧
      1 < ([rowA, badUrlRow] : List (List Cell)).length ∧
      rowOutput requiredFields (atD [rowA, badUrlRow] 1 []) = none ∧
      (parseJobListings (mkSheet (hdr8 :: [rowA, badUrlRow])) =
          (eraseL [rowA, badUrlRow] 1).filterMap (rowOutput requiredFields) ∧
        parseJobListings (mkSheet (hdr8 :: [rowA, badUrlRow])) =
          ([rowA, badUrlRow] : List (List Cell)).filterMap
            (rowOutput requiredFields)) :=
  ⟨by decide, by decide, by decide,
    c8_row_local hdr8 [rowA, badUrlRow] requiredFields 1 (by decide)
      (by decide) (by decide)⟩

theorem tableOk_setL (hdr : List Cell) (rows : List (List Cell))
    (fs : List String) (i : Nat) (r' : List Cell) (h : tableOk hdr rows fs)
    (h8 : 8 ≤ r'.length) : tableOk hdr (setL rows i r') fs := by
  refine ⟨h.1, h.2.1, setL_ne_nil rows i r' h.2.2.1, ?_⟩
  intro r hr
  rcases mem_setL rows i r' r hr with hr | hr
  · exact hr ▸ h8
  · exact h.2.2.2 r hr

theorem tableOk_eraseL (hdr : List Cell) (rows : List (List Cell))
    (fs : List String) (i : Nat) (h : tableOk hdr rows fs)
    (h2 : 2 ≤ rows.length) : tableOk hdr (eraseL rows i) fs := by
  refine ⟨h.1, h.2.1, ?_, ?_⟩
  · by_cases hi : i < rows.length
    · have := length_eraseL rows i hi
      intro hnil
      rw [hnil] at this
      simp at this
      omega
    · have : eraseL rows i = rows := by
        clear h h2
        induction rows generalizing i with
        | nil => cases i <;> rfl
        | cons a as ih =>
          cases i with
          | zero => simp at hi
          | succ i =>
            simp only [eraseL]
            rw [ih i (by simp at hi ⊢; omega)]
      rw [this]
      exact h.2.2.1
  · intro r hr
    exact h.2.2.2 r (mem_eraseL rows i r hr)

/-- C4 counterexample: with a table of two valid rows, corrupting data
row 0 into the single-cell row `[1]` is batch-fatal, so whether data row
1's listing appears in the output does change. -/
theorem c4_cex :
    listB ∈ parseJobListings (mkSheet (hdr8 :: [rowA, rowB])) ∧
      parseJobListings (mkSheet (hdr8 :: setL [rowA, rowB] 0 [Cell.num 1]))
        = [] := by
  decide

/-- C4 as amended: for an accepted table, removing data row `i`, or
replacing it by any row that still satisfies the raw row validator (at
least 8 scalar cells), never changes whether row `j`'s listing appears:
all three parses are the per-row filterMap of their rows, row `j` itself
is untouched, and any listing row `j` produces appears in all three
outputs. -/
theorem c4_row_independence (hdr : List Cell) (rows : List (List Cell))
    (fs : List String) (i j : Nat) (r' : List Cell)
    (h : tableOk hdr rows fs) (h8 : 8 ≤ r'.length) (hij : i ≠ j)
    (hi : i < rows.length) (hj : j < rows.length) :
    parseJobListings (mkSheet (hdr :: rows)) =
        rows.filterMap (rowOutput fs) ∧
      parseJobListings (mkSheet (hdr :: setL rows i r')) =
        (setL rows i r').filterMap (rowOutput fs) ∧
      parseJobListings (mkSheet (hdr :: eraseL rows i)) =
        (eraseL rows i).filterMap (rowOutput fs) ∧
      atD (setL rows i r') j [] = atD rows j [] ∧
      ∀ l, rowOutput fs (atD rows j []) = some l →
        l ∈ parseJobListings (mkSheet (hdr :: rows)) ∧
          l ∈ parseJobListings (mkSheet (hdr :: setL rows i r')) ∧
          l ∈ parseJobListings (mkSheet (hdr :: eraseL rows i)) := by
  have h2 : 2 ≤ rows.length := by omega
  have hp0 := parse_mkSheet hdr rows fs h
  have hps := parse_mkSheet hdr (setL rows i r') fs (tableOk_setL hdr rows fs i r' h h8)
  have hpe := parse_mkSheet hdr (eraseL rows i) fs (tableOk_eraseL hdr rows fs i h h2)
  rw [recordsOut_eq] at hp0 hps hpe
  refine ⟨hp0, hps, hpe, atD_setL_ne rows i j r' [] hij, ?_⟩
  intro l hl
  refine ⟨?_, ?_, ?_⟩
  · rw [hp0]
    exact List.mem_filterMap.mpr ⟨atD rows j [], atD_mem rows j [] hj, hl⟩
  · rw [hps]
    refine List.mem_filterMap.mpr ⟨atD (setL rows i r') j [], ?_, ?_⟩
    · exact atD_mem (setL rows i r') j []
        (by rw [length_setL]; exact hj)
    · rw [atD_setL_ne rows i j r' [] hij]
      exact hl
  · rw [hpe]
    exact List.mem_filterMap.mpr
      ⟨atD rows j [], atD_setL_mem_eraseL rows i j [] hij hj, hl⟩

/-- Witness for C4 (amended): the two-row table with a fully valid
replacement row; all hypotheses hold concretely. -/
theorem c4_row_independence_w :
    tableOk hdr8 [rowA, rowB] requiredFields ∧ 8 ≤ badUrlRow.length ∧
      (0 : Nat) ≠ 1 ∧ 0 < ([rowA, rowB] : List (List Cell)).length ∧
      1 < ([rowA, rowB] : List (List Cell)).length ∧
      (parseJobListings (mkSheet (hdr8 :: [rowA, rowB])) =
          ([rowA, rowB] : List (List Cell)).filterMap
            (rowOutput requiredFields) ∧
        parseJobListings (mkSheet (hdr8 :: setL [rowA, rowB] 0 badUrlRow)) =
          (setL [rowA, rowB] 0 badUrlRow).filterMap
            (rowOutput requiredFields) ∧
        parseJobListings (mkSheet (hdr8 :: eraseL [rowA, rowB] 0)) =
          (eraseL [rowA, rowB] 0).filterMap (rowOutput requiredFields) ∧
        atD (setL [rowA, rowB] 0 badUrlRow) 1 [] = atD [rowA, rowB] 1 [] ∧
        ∀ l, rowOutput requiredFields (atD [rowA, rowB] 1 []) = some l →
          l ∈ parseJobListings (mkSheet (hdr8 :: [rowA, rowB])) ∧
            l ∈ parseJobListings
                (mkSheet (hdr8 :: setL [rowA, rowB] 0 badUrlRow)) ∧
            l ∈ parseJobListings (mkSheet (hdr8 :: eraseL [rowA, rowB] 0))) :=
  ⟨by decide, by decide, by decide, by decide, by decide,
    c4_row_independence hdr8 [rowA, rowB] requiredFields 0 1 badUrlRow
      (by decide) (by decide) (by decide) (by decide) (by decide)⟩

/-! ### Required-field bookkeeping inside the row loop -/

theorem setReq_extraFields (rec : PartialRecord) (k v : String) :
    (setReq rec k v).extraFields = rec.extraFields := by
  unfold setReq
  split_ifs <;> rfl

theorem reqGet_extraUpdate (rec : PartialRecord) (E : List (String × Cell))
    (k : String) :
    reqGet { rec with extraFields := E } k = reqGet rec k := by
  unfold reqGet
  split_ifs <;> rfl

theorem reqGet_empty (k : String) : reqGet emptyRecord k = none := by
  unfold reqGet emptyRecord
  split_ifs <;> rfl

theorem setReq_company (rec : PartialRecord) (k v : String)
    (h : k ≠ "company") : (setReq rec k v).company = rec.company := by
  unfold setReq
  split_ifs <;> simp_all

theorem setReq_jobTitle (rec : PartialRecord) (k v : String)
    (h : k ≠ "jobTitle") : (setReq rec k v).jobTitle = rec.jobTitle := by
  unfold setReq
  split_ifs <;> simp_all

theorem setReq_location (rec : PartialRecord) (k v : String)
    (h : k ≠ "location") : (setReq rec k v).location = rec.location := by
  unfold setReq
  split_ifs <;> simp_all

theorem setReq_appStatus (rec : PartialRecord) (k v : String)
    (h : k ≠ "appStatus") : (setReq rec k v).appStatus = rec.appStatus := by
  unfold setReq
  split_ifs <;> simp_all

theorem setReq_url (rec : PartialRecord) (k v : String)
    (h : k ≠ "url") : (setReq rec k v).url = rec.url := by
  unfold setReq
  split_ifs <;> simp_all

theorem setReq_notes (rec : PartialRecord) (k v : String)
    (h : k ≠ "notes") : (setReq rec k v).notes = rec.notes := by
  unfold setReq
  split_ifs <;> simp_all

theorem setReq_dateSubmitted (rec : PartialRecord) (k v : String)
    (h : k ≠ "dateSubmitted") :
    (setReq rec k v).dateSubmitted = rec.dateSubmitted := by
  unfold setReq
  split_ifs <;> simp_all

theorem setReq_dateLastModified (rec : PartialRecord) (k v : String)
    (h : k ≠ "dateLastModified") :
    (setReq rec k v).dateLastModified = rec.dateLastModified := by
  unfold setReq
  split_ifs <;> simp_all

theorem reqGet_setReq_ne (rec : PartialRecord) (key k v : String)
    (hne : key ≠ k) : reqGet (setReq rec key v) k = reqGet rec k := by
  unfold reqGet
  split_ifs with h1 h2 h3 h4 h5 h6 h7 h8
  · exact setReq_company rec key v (fun hc => hne (hc.trans h1.symm))
  · exact setReq_jobTitle rec key v (fun hc => hne (hc.trans h2.symm))
  · exact setReq_location rec key v (fun hc => hne (hc.trans h3.symm))
  · exact setReq_appStatus rec key v (fun hc => hne (hc.trans h4.symm))
  · exact setReq_url rec key v (fun hc => hne (hc.trans h5.symm))
  · exact setReq_notes rec key v (fun hc => hne (hc.trans h6.symm))
  · exact setReq_dateSubmitted rec key v (fun hc => hne (hc.trans h7.symm))
  · exact setReq_dateLastModified rec key v (fun hc => hne (hc.trans h8.symm))
  · rfl

theorem keyAt_mem (fs : List String) (n : Nat) (h : n < fs.length) :
    keyAt fs n ∈ fs := by
  induction fs generalizing n with
  | nil => simp at h
  | cons f fs ih =>
    cases n with
    | zero => exact List.mem_cons_self _ _
    | succ n => exact List.mem_cons_of_mem _ (ih n (by simpa using h))

theorem keyAt_ge (fs : List String) (n : Nat) (h : fs.length ≤ n) :
    keyAt fs n = "" := by
  induction fs generalizing n with
  | nil => cases n <;> rfl
  | cons f fs ih =>
    cases n with
    | zero => simp at h
    | succ n => exact ih n (by simpa using h)

theorem keyAt_inj (fs : List String) (hnd : fs.Nodup) (a b : Nat)
    (ha : a < fs.length) (hb : b < fs.length) (hab : a ≠ b) :
    keyAt fs a ≠ keyAt fs b := by
  induction fs generalizing a b with
  | nil => simp at ha
  | cons f fs ih =>
    rcases List.nodup_cons.mp hnd with ⟨hf, hfs⟩
    cases a with
    | zero =>
      cases b with
      | zero => exact absurd rfl hab
      | succ b =>
        intro hc
        apply hf
        have hfb : f = keyAt fs b := hc
        rw [hfb]
        exact keyAt_mem fs b (by simpa using hb)
    | succ a =>
      cases b with
      | zero =>
        intro hc
        apply hf
        have hfa : keyAt fs a = f := hc
        rw [← hfa]
        exact keyAt_mem fs a (by simpa using ha)
      | succ b =>
        exact ih hfs a b (by simpa using ha) (by simpa using hb)
          (fun hc => hab (by omega))

theorem buildGo_reqGet_none (fs : List String) (k : String)
    (cs : List Cell) :
    ∀ (i : Nat) (rec : PartialRecord),
      (∀ t, t < cs.length → keyAt fs (i + t) ≠ k) →
      reqGet rec k = none → reqGet (buildGo fs i rec cs) k = none := by
  induction cs with
  | nil => intro i rec _ hrec; exact hrec
  | cons c cs ih =>
    intro i rec hno hrec
    simp only [buildGo]
    refine ih (i + 1) (buildStep fs rec i c) ?_ ?_
    · intro t ht
      have := hno (t + 1) (by simpa using Nat.succ_lt_succ ht)
      rwa [show i + 1 + t = i + (t + 1) by omega]
    · have hkey : keyAt fs i ≠ k := by
        have := hno 0 (by simp)
        simpa using this
      unfold buildStep
      by_cases hb : isRequiredField (keyAt fs i) = true
      · rw [if_pos hb]
        cases c with
        | str s =>
          show reqGet (setReq rec (keyAt fs i) s) k = none
          rw [reqGet_setReq_ne rec (keyAt fs i) k s hkey]
          exact hrec
        | num n => exact hrec
        | bool b => exact hrec
      · rw [if_neg hb]
        rw [reqGet_extraUpdate]
        exact hrec

/-- C7 counterexample: a data row shorter than the header (2 cells against
an 8-column header) is batch-fatal — with it present, even the valid
sibling row's listing disappears from the output, against the claim. -/
theorem c7_cex :
    ([Cell.str "short", Cell.num 2] : List Cell).length < hdr8.length ∧
      parseJobListings
        (mkSheet (hdr8 :: [rowA, [Cell.str "short", Cell.num 2]])) = [] ∧
      parseJobListings (mkSheet (hdr8 :: [rowA])) = [listA] := by
  decide

/-- C7 as amended: a data row shorter than the header but meeting the raw
row minimum of 8 cells is never batch-fatal: on an accepted table, the
required columns beyond the short row's length remain unset on its partial
record, the whole batch still parses row by row, and the short row is at
most dropped by final validation (if its record validates, its listing is
in the output). -/
theorem c7_short_row (hdr : List Cell) (rows : List (List Cell))
    (fs : List String) (k : Nat) (h : tableOk hdr rows fs)
    (hk : k < rows.length) (hshort : (atD rows k []).length < fs.length) :
    (∀ c, (atD rows k []).length ≤ c → isRequiredField (keyAt fs c) = true →
        reqGet (buildRecord fs (atD rows k [])) (keyAt fs c) = none) ∧
      parseJobListings (mkSheet (hdr :: rows)) =
        rows.filterMap (rowOutput fs) ∧
      ∀ l, rowOutput fs (atD rows k []) = some l →
        l ∈ parseJobListings (mkSheet (hdr :: rows)) := by
  have hp := parse_mkSheet hdr rows fs h
  rw [recordsOut_eq] at hp
  have hnd : fs.Nodup := (fieldsOk_inv fs h.2.1).2.1
  refine ⟨?_, hp, ?_⟩
  · intro c hc hcreq
    have hclt : c < fs.length := by
      by_contra hge
      rw [keyAt_ge fs c (by omega)] at hcreq
      exact absurd hcreq (by decide)
    refine buildGo_reqGet_none fs (keyAt fs c) (atD rows k []) 0 emptyRecord
      ?_ (reqGet_empty _)
    intro t ht
    have htc : t ≠ c := by omega
    have htlt : t < fs.length := by omega
    simpa using keyAt_inj fs hnd t c htlt hclt htc
  · intro l hl
    rw [hp]
    exact List.mem_filterMap.mpr ⟨atD rows k [], atD_mem rows k [] hk, hl⟩

/-- Witness for C7 (amended): under the 9-column scenario-A header, the
8-cell row `rowA` is shorter than the header yet the table parses, the
`source` column is simply unvisited for it, and its listing survives. -/
theorem c7_short_row_w :
    tableOk headerCells [goodRow, rowA] (requiredFields ++ ["source"]) ∧
      1 < ([goodRow, rowA] : List (List Cell)).length ∧
      (atD [goodRow, rowA] 1 []).length <
        (requiredFields ++ ["source"]).length ∧
      ((∀ c, (atD [goodRow, rowA] 1 []).length ≤ c →
          isRequiredField (keyAt (requiredFields ++ ["source"]) c) = true →
          reqGet (buildRecord (requiredFields ++ ["source"])
              (atD [goodRow, rowA] 1 []))
            (keyAt (requiredFields ++ ["source"]) c) = none) ∧
        parseJobListings (mkSheet (headerCells :: [goodRow, rowA])) =
          ([goodRow, rowA] : List (List Cell)).filterMap
            (rowOutput (requiredFields ++ ["source"])) ∧
        ∀ l, rowOutput (requiredFields ++ ["source"])
            (atD [goodRow, rowA] 1 []) = some l →
          l ∈ parseJobListings (mkSheet (headerCells :: [goodRow, rowA]))) :=
  ⟨by decide, by decide, by decide,
    c7_short_row headerCells [goodRow, rowA] (requiredFields ++ ["source"]) 1
      (by decide) (by decide) (by decide)⟩

/-! ### Extra-field bookkeeping inside the row loop -/

/-- First-some choice (later loop iterations take precedence, matching JS
overwrite order when the first argument holds the later write). -/
def oOr : Option α → Option α → Option α
  | some x, _ => some x
  | none, b => b

theorem oOr_none_right (a : Option α) : oOr a none = a := by
  cases a <;> rfl

theorem oOr_assoc (a b c : Option α) :
    oOr (oOr a b) c = oOr a (oOr b c) := by
  cases a <;> rfl

theorem extLookup_objSet_same (E : List (String × Cell)) (k : String)
    (v : Cell) : extLookup (objSet E k v) k = some v := by
  induction E with
  | nil => simp [objSet, extLookup]
  | cons p E ih =>
    by_cases hp : p.1 = k
    · simp [objSet, extLookup, hp]
    · simp [objSet, extLookup, hp, ih]

theorem extLookup_objSet_ne (E : List (String × Cell)) (k0 k : String)
    (v : Cell) (h : k0 ≠ k) :
    extLookup (objSet E k0 v) k = extLookup E k := by
  induction E with
  | nil => simp [objSet, extLookup, h]
  | cons p E ih =>
    by_cases hp : p.1 = k0
    · simp [objSet, extLookup, hp, h]
    · simp only [objSet, hp, if_false, extLookup]
      by_cases hpk : p.1 = k
      · simp [hpk]
      · simp [hpk, ih]

/-- The cell written last into column name `k` while scanning `cs` with
header `fs` from index `i` on (later writes take precedence). -/
def lastWrite (fs : List String) (k : String) : Nat → List Cell → Option Cell
  | _, [] => none
  | i, c :: cs =>
    oOr (lastWrite fs k (i + 1) cs)
      (if keyAt fs i = k then some c else none)

theorem lastWrite_none (fs : List String) (k : String) (cs : List Cell)
    (i : Nat) (h : ∀ t, t < cs.length → keyAt fs (i + t) ≠ k) :
    lastWrite fs k i cs = none := by
  induction cs generalizing i with
  | nil => rfl
  | cons c cs ih =>
    have h0 : keyAt fs i ≠ k := by simpa using h 0 (by simp)
    have hrest : lastWrite fs k (i + 1) cs = none := by
      refine ih (i + 1) ?_
      intro t ht
      have := h (t + 1) (by simpa using Nat.succ_lt_succ ht)
      rwa [show i + 1 + t = i + (t + 1) by omega]
    simp [lastWrite, hrest, h0, oOr]

theorem lastWrite_unique (fs : List String) (k : String) (cs : List Cell)
    (i c : Nat) (hc : c < cs.length) (hk : keyAt fs (i + c) = k)
    (hout : ∀ t, t < cs.length → t ≠ c → keyAt fs (i + t) ≠ k) :
    lastWrite fs k i cs = some (atD cs c (Cell.str "")) := by
  induction cs generalizing i c with
  | nil => simp at hc
  | cons x cs ih =>
    cases c with
    | zero =>
      have hrest : lastWrite fs k (i + 1) cs = none := by
        refine lastWrite_none fs k cs (i + 1) ?_
        intro t ht
        have := hout (t + 1) (by simpa using Nat.succ_lt_succ ht) (by omega)
        rwa [show i + 1 + t = i + (t + 1) by omega]
      have hi : keyAt fs i = k := by simpa using hk
      simp [lastWrite, hrest, hi, oOr, atD]
    | succ c =>
      have h0 : keyAt fs i ≠ k := by
        simpa using hout 0 (by simp) (by omega)
      have hrest : lastWrite fs k (i + 1) cs =
          some (atD cs c (Cell.str "")) := by
        refine ih (i + 1) c (by simpa using hc) ?_ ?_
        · rwa [show i + 1 + c = i + (c + 1) by omega]
        · intro t ht htc
          have := hout (t + 1) (by simpa using Nat.succ_lt_succ ht) (by omega)
          rwa [show i + 1 + t = i + (t + 1) by omega]
      simp [lastWrite, hrest, h0, oOr, atD]

theorem buildGo_extLookup (fs : List String) (k : String)
    (hk : isRequiredField k = false) (cs : List Cell) :
    ∀ (i : Nat) (rec : PartialRecord),
      extLookup (buildGo fs i rec cs).extraFields k =
        oOr (lastWrite fs k i cs) (extLookup rec.extraFields k) := by
  induction cs with
  | nil => intro i rec; simp [buildGo, lastWrite, oOr]
  | cons c cs ih =>
    intro i rec
    simp only [buildGo]
    rw [ih (i + 1) (buildStep fs rec i c)]
    simp only [lastWrite]
    by_cases hkk : keyAt fs i = k
    · have hbr : isRequiredField (keyAt fs i) = false := hkk ▸ hk
      have hextra : (buildStep fs rec i c).extraFields =
          objSet rec.extraFields k c := by
        unfold buildStep
        rw [hbr]
        simp only [Bool.false_eq_true, if_false, hkk]
      rw [hextra, extLookup_objSet_same, if_pos hkk, oOr_assoc]
      rfl
    · have hlook : extLookup (buildStep fs rec i c).extraFields k =
          extLookup rec.extraFields k := by
        unfold buildStep
        by_cases hb : isRequiredField (keyAt fs i) = true
        · rw [if_pos hb]
          cases c with
          | str s =>
            show extLookup (setReq rec (keyAt fs i) s).extraFields k = _
            rw [setReq_extraFields]
          | num n => rfl
          | bool b => rfl
        · rw [if_neg hb]
          exact extLookup_objSet_ne rec.extraFields (keyAt fs i) k c hkk
      rw [hlook, if_neg hkk, oOr_none_right]

/-- The C5 counterexample header: the eight required names plus a column
literally named by the empty string. -/
def c5fields : List String := requiredFields ++ [""]

/-- The C5 counterexample row: valid required cells, a cell `A` in the
empty-named column, and a tenth cell `B` beyond the header. -/
def c5row : List Cell := rowA ++ [Cell.str "A", Cell.str "B"]

/-- The listing the C5 counterexample parses to: the overflow cell `B`
overwrote the empty-named column's own cell `A`. -/
def c5listing : JobListing :=
  ⟨"A Co", "Dev", "X", "Applied", "", "", dt1, dt2, [("", Cell.str "B")]⟩

/-- C5 counterexample: column 8 is the non-required header name `""`, the
successfully parsed row has cell `A` there, yet `extraFields` maps `""` to
the out-of-header cell `B`, not to that cell's value. -/
theorem c5_cex :
    keyAt c5fields 8 = "" ∧ isRequiredField "" = false ∧
      atD c5row 8 (Cell.str "") = Cell.str "A" ∧
      parseJobListings (mkSheet ((c5fields.map Cell.str) :: [c5row])) =
        [c5listing] ∧
      extLookup c5listing.extraFields "" ≠
        some (atD c5row 8 (Cell.str "")) := by
  decide

/-- C5 as amended: on an accepted table, for every non-required header
column `c` and every successfully parsed row with a cell in that column,
`extraFields` maps the raw column name to that cell's value — provided the
column name is not the empty string or the row does not extend past the
header (otherwise cells beyond the header, which resolve to the name `""`,
overwrite it). -/
theorem c5_extra_columns (hdr : List Cell) (rows : List (List Cell))
    (fs : List String) (c : Nat) (row : List Cell) (l : JobListing)
    (h : tableOk hdr rows fs) (hrow : row ∈ rows) (hc : c < fs.length)
    (hnr : isRequiredField (keyAt fs c) = false) (hcr : c < row.length)
    (hl : rowOutput fs row = some l)
    (hside : keyAt fs c ≠ "" ∨ row.length ≤ fs.length) :
    extLookup l.extraFields (keyAt fs c) = some (atD row c (Cell.str "")) ∧
      l ∈ parseJobListings (mkSheet (hdr :: rows)) := by
  have hnd : fs.Nodup := (fieldsOk_inv fs h.2.1).2.1
  have hext : l.extraFields = (buildRecord fs row).extraFields :=
    (validateListing_props _ _ hl).2.2.2.2.2.2
  have hwrite : lastWrite fs (keyAt fs c) 0 row =
      some (atD row c (Cell.str "")) := by
    refine lastWrite_unique fs (keyAt fs c) row 0 c hcr
      (by rw [Nat.zero_add]) ?_
    intro t ht htc
    rw [Nat.zero_add]
    by_cases htf : t < fs.length
    · exact keyAt_inj fs hnd t c htf hc htc
    · rw [keyAt_ge fs t (by omega)]
      rcases hside with hs | hs
      · exact fun hcon => hs hcon.symm
      · omega
  have hbuild : extLookup (buildRecord fs row).extraFields (keyAt fs c) =
      some (atD row c (Cell.str "")) := by
    unfold buildRecord
    rw [buildGo_extLookup fs (keyAt fs c) hnr row 0 emptyRecord, hwrite]
    rfl
  refine ⟨hext ▸ hbuild, ?_⟩
  have hp := parse_mkSheet hdr rows fs h
  rw [recordsOut_eq] at hp
  rw [hp]
  exact List.mem_filterMap.mpr ⟨row, hrow, hl⟩

/-- Witness for C5 (amended): scenario A's `source` column (index 8) on
its single row; `extraFields` maps `source` to `LinkedIn` and the listing
is in the output. -/
theorem c5_extra_columns_w :
    tableOk headerCells [goodRow] (requiredFields ++ ["source"]) ∧
      goodRow ∈ ([goodRow] : List (List Cell)) ∧
      8 < (requiredFields ++ ["source"]).length ∧
      isRequiredField (keyAt (requiredFields ++ ["source"]) 8) = false ∧
      8 < goodRow.length ∧
      rowOutput (requiredFields ++ ["source"]) goodRow = some happyListing ∧
      (keyAt (requiredFields ++ ["source"]) 8 ≠ "" ∨
        goodRow.length ≤ (requiredFields ++ ["source"]).length) ∧
      (extLookup happyListing.extraFields
          (keyAt (requiredFields ++ ["source"]) 8) =
          some (atD goodRow 8 (Cell.str "")) ∧
        happyListing ∈ parseJobListings (mkSheet (headerCells :: [goodRow]))) :=
  ⟨by decide, by decide, by decide, by decide, by decide, by decide,
    by decide,
    c5_extra_columns headerCells [goodRow] (requiredFields ++ ["source"]) 8
      goodRow happyListing (by decide) (by decide) (by decide) (by decide)
      (by decide) (by decide) (by decide)⟩

/-! ### Envelope characterization (C2) -/

theorem jsonToCell_some_iff (v : Json) (c : Cell) :
    jsonToCell v = some c ↔ v = cellToJson c := by
  constructor
  · intro h
    cases v with
    | str s => injection h with h; rw [← h]; rfl
    | num n => injection h with h; rw [← h]; rfl
    | bool b => injection h with h; rw [← h]; rfl
    | null => exact Option.noConfusion h
    | arr xs => exact Option.noConfusion h
    | obj kvs => exact Option.noConfusion h
  · intro h
    rw [h]
    exact jsonToCell_cellToJson c

theorem mapO_jsonToCell_iff (xs : List Json) (cs : List Cell) :
    mapO jsonToCell xs = some cs ↔ xs = cs.map cellToJson := by
  constructor
  · intro h
    induction xs generalizing cs with
    | nil =>
      simp only [mapO, Option.some.injEq] at h
      rw [← h]
      rfl
    | cons x xs ih =>
      simp only [mapO] at h
      rcases hx : jsonToCell x with _ | c <;> rw [hx] at h
      · exact Option.noConfusion h
      · rcases hxs : mapO jsonToCell xs with _ | cs0 <;> rw [hxs] at h
        · exact Option.noConfusion h
        · injection h with h
          rw [← h, List.map_cons]
          rw [(jsonToCell_some_iff x c).mp hx, ih cs0 hxs]
  · intro h
    rw [h]
    exact mapO_map_some jsonToCell cellToJson cs jsonToCell_cellToJson

theorem rowFromJson_isSome_iff (v : Json) :
    (rowFromJson v).isSome = true ↔
      ∃ cs : List Cell, v = Json.arr (cs.map cellToJson) ∧ 8 ≤ cs.length := by
  constructor
  · intro h
    unfold rowFromJson at h
    split at h
    · split at h
      · split at h
        · rename_i xs x1 cs hm hc
          exact ⟨cs, by rw [(mapO_jsonToCell_iff xs cs).mp hm], hc.2⟩
        · simp at h
      · simp at h
    · simp at h
  · intro ⟨cs, hv, hlen⟩
    rw [hv, rowFromJson_mk_of_len cs hlen]
    rfl

theorem stage1_compute (kvs : List (String × Json)) (vs : List Json)
    (r0 : List Cell) (rest : List (List Cell))
    (hmd : jLookup kvs "majorDimension" = some (Json.str "ROWS"))
    (hvs : jLookup kvs "values" = some (Json.arr vs))
    (hrows : mapO rowFromJson vs = some (r0 :: rest))
    (hlen : 2 ≤ (r0 :: rest).length) :
    stage1 (Json.obj kvs) = some (r0, rest) := by
  have hne : rest ≠ [] := by
    cases rest with
    | nil => simp at hlen
    | cons b bs => simp
  simp [stage1, hmd, hvs, hrows, hlen, hne]

theorem stage1_some_inv (j : Json) (fc : List Cell)
    (rest : List (List Cell)) (h : stage1 j = some (fc, rest)) :
    ∃ kvs vs rows, j = Json.obj kvs ∧
      jLookup kvs "majorDimension" = some (Json.str "ROWS") ∧
      jLookup kvs "values" = some (Json.arr vs) ∧
      mapO rowFromJson vs = some rows ∧ 2 ≤ rows.length ∧
      rows = fc :: rest := by
  unfold stage1 at h
  split at h
  · rename_i kvs
    split at h
    · rename_i x1 md hmd
      split at h
      · rename_i hR
        subst hR
        split at h
        · rename_i x2 vs hvs
          split at h
          · rename_i x3 rows hrowsEq
            split at h
            · rename_i hlen
              split at h
              · rename_i r0 rest0
                injection h with h
                rw [Prod.mk.injEq] at h
                obtain ⟨h1, h2⟩ := h
                subst h1; subst h2
                exact ⟨kvs, vs, r0 :: rest0, rfl, hmd, hvs, hrowsEq,
                  hlen, rfl⟩
              · exact Option.noConfusion h
            · exact Option.noConfusion h
          · exact Option.noConfusion h
        · exact Option.noConfusion h
      · exact Option.noConfusion h
    · exact Option.noConfusion h
  · exact Option.noConfusion h

/-- The value scenario used against C2: a `values`-only payload of two
one-cell rows — the claim accepts it, the code does not. -/
def cex2 : Json :=
  Json.obj
    [("values", Json.arr [Json.arr [Json.str "a"], Json.arr [Json.str "b"]])]

/-- C2 counterexample: `cex2` satisfies the claim's acceptance condition
(an object with a `values` table of two non-empty all-scalar rows), yet
the envelope stage rejects it (no `majorDimension` literal, rows shorter
than 8 cells). -/
theorem c2_cex : EnvClaimPred cex2 ∧ stage1 cex2 = none := by
  constructor
  · refine ⟨[("values",
      Json.arr [Json.arr [Json.str "a"], Json.arr [Json.str "b"]])],
      [Json.arr [Json.str "a"], Json.arr [Json.str "b"]], rfl, rfl,
      by simp, ?_⟩
    intro v hv
    simp only [List.mem_cons, List.not_mem_nil, or_false] at hv
    rcases hv with hv | hv <;> subst hv
    · exact ⟨[Cell.str "a"], rfl, by simp⟩
    · exact ⟨[Cell.str "b"], rfl, by simp⟩
  · decide

/-- C2 as amended: the envelope stage accepts exactly the objects carrying
`majorDimension: "ROWS"` and a `values` table of at least two rows, each
of which is a non-empty array of at least 8 scalar (text, number or
boolean) cells; everything else fails as a value, not a thrown fault. -/
theorem c2_envelope (j : Json) : (stage1 j).isSome = true ↔ EnvAccept j := by
  constructor
  · intro h
    rcases ho : stage1 j with _ | ⟨fc, rest⟩
    · rw [ho] at h
      simp at h
    · obtain ⟨kvs, vs, rows, hj, hmd, hvs, hrows, hlen, hsplit⟩ :=
        stage1_some_inv j fc rest ho
      refine ⟨kvs, vs, hj, hmd, hvs, ?_, ?_⟩
      · have := mapO_length rowFromJson vs rows hrows
        omega
      · intro v hv
        have hvok := mapO_isSome_all rowFromJson vs rows hrows v hv
        exact (rowFromJson_isSome_iff v).mp hvok
  · intro ⟨kvs, vs, hj, hmd, hvs, hlen, hall⟩
    subst hj
    have hsome : ∀ v ∈ vs, (rowFromJson v).isSome := by
      intro v hv
      exact (rowFromJson_isSome_iff v).mpr (hall v hv)
    obtain ⟨rows, hrows⟩ := mapO_some_of_all rowFromJson vs hsome
    have hrl : rows.length = vs.length := mapO_length rowFromJson vs rows hrows
    have hlen2 : 2 ≤ rows.length := by omega
    cases rows with
    | nil => simp at hrl; omega
    | cons r0 rest =>
      rw [stage1_compute kvs vs r0 rest hmd hvs hrows hlen2]
      rfl

/-! ### Relating the two pre-split implementations (C10) -/

/-- Restriction of a partial record's extra data to the single key
`extraFields`. -/
def restrictRecord (rec : PartialRecord) : PartialRecord :=
  { rec with
    extraFields := rec.extraFields.filter (fun p => p.1 = "extraFields") }

theorem req_ne_extraForm (k : String) (h : isRequiredField k = true) :
    k ≠ "extraFields" := by
  intro hc
  subst hc
  simp [isRequiredField, requiredFields] at h

theorem keyAtO_some_keyAt (fs : List String) (i : Nat) (k : String)
    (h : keyAtO fs i = some k) : keyAt fs i = k := by
  induction fs generalizing i with
  | nil => cases i <;> exact Option.noConfusion h
  | cons f fs ih =>
    cases i with
    | zero => injection h
    | succ i => exact ih i h

theorem keyAtO_none_keyAt (fs : List String) (i : Nat)
    (h : keyAtO fs i = none) : keyAt fs i = "" := by
  induction fs generalizing i with
  | nil => cases i <;> rfl
  | cons f fs ih =>
    cases i with
    | zero => exact Option.noConfusion h
    | succ i => exact ih i h

theorem filter_objSet_keep (E : List (String × Cell)) (k : String) (v : Cell)
    (hk : k = "extraFields") :
    (objSet E k v).filter (fun p => p.1 = "extraFields") =
      objSet (E.filter (fun p => p.1 = "extraFields")) k v := by
  subst hk
  induction E with
  | nil => simp [objSet, List.filter]
  | cons p E ih =>
    rcases p with ⟨k0, v0⟩
    by_cases hp : k0 = "extraFields"
    · subst hp
      simp [objSet, List.filter]
    · simp [objSet, hp, List.filter, ih]

theorem filter_objSet_drop (E : List (String × Cell)) (k : String) (v : Cell)
    (hk : k ≠ "extraFields") :
    (objSet E k v).filter (fun p => p.1 = "extraFields") =
      E.filter (fun p => p.1 = "extraFields") := by
  induction E with
  | nil => simp [objSet, List.filter, hk]
  | cons p E ih =>
    rcases p with ⟨k0, v0⟩
    by_cases hp : k0 = k
    · subst hp
      simp [objSet, List.filter, hk]
    · by_cases hpe : k0 = "extraFields"
      · subst hpe
        have hne : ¬("extraFields" = k) := fun hc => hk hc.symm
        simp [objSet, hne, List.filter, ih]
      · simp [objSet, hp, List.filter, hpe, ih]

theorem setReq_restrict (rec : PartialRecord) (k v : String) :
    restrictRecord (setReq rec k v) = setReq (restrictRecord rec) k v := by
  unfold setReq
  split_ifs <;> rfl

theorem buildStepB_eq_some (fs : List String) (rec : PartialRecord)
    (i : Nat) (c : Cell) (k : String) (h : keyAtO fs i = some k) :
    buildStepB fs rec i c =
      if isRequiredField k = true then
        match c with
        | Cell.str s => setReq rec k s
        | _ => rec
      else if k = "extraFields" then
        { rec with extraFields := objSet rec.extraFields k c }
      else rec := by
  cases c <;> simp [buildStepB, h]

theorem buildStepB_eq_none (fs : List String) (rec : PartialRecord)
    (i : Nat) (c : Cell) (h : keyAtO fs i = none) :
    buildStepB fs rec i c = rec := by
  cases c <;> simp [buildStepB, h]

theorem buildStepB_restrict (fs : List String) (rec : PartialRecord)
    (i : Nat) (c : Cell) :
    buildStepB fs (restrictRecord rec) i c =
      restrictRecord (buildStep fs rec i c) := by
  rcases hko : keyAtO fs i with _ | k
  · rw [buildStepB_eq_none fs (restrictRecord rec) i c hko]
    unfold buildStep
    rw [keyAtO_none_keyAt fs i hko]
    rw [if_neg (by decide : ¬isRequiredField "" = true)]
    show restrictRecord rec =
      restrictRecord { rec with extraFields := objSet rec.extraFields "" c }
    show ({ rec with
        extraFields :=
          rec.extraFields.filter (fun p => p.1 = "extraFields") } :
        PartialRecord) =
      { rec with
        extraFields :=
          (objSet rec.extraFields "" c).filter
            (fun p => p.1 = "extraFields") }
    rw [filter_objSet_drop rec.extraFields "" c (by decide)]
  · rw [buildStepB_eq_some fs (restrictRecord rec) i c k hko]
    unfold buildStep
    rw [keyAtO_some_keyAt fs i k hko]
    by_cases hreq : isRequiredField k = true
    · rw [if_pos hreq, if_pos hreq]
      cases c with
      | str s => exact (setReq_restrict rec k s).symm
      | num n => rfl
      | bool b => rfl
    · rw [if_neg hreq, if_neg hreq]
      by_cases hext : k = "extraFields"
      · rw [if_pos hext]
        show ({ rec with
            extraFields :=
              objSet (rec.extraFields.filter (fun p => p.1 = "extraFields"))
                k c } : PartialRecord) =
          { rec with
            extraFields :=
              (objSet rec.extraFields k c).filter
                (fun p => p.1 = "extraFields") }
        rw [filter_objSet_keep rec.extraFields k c hext]
      · rw [if_neg hext]
        show ({ rec with
            extraFields :=
              rec.extraFields.filter (fun p => p.1 = "extraFields") } :
            PartialRecord) =
          { rec with
            extraFields :=
              (objSet rec.extraFields k c).filter
                (fun p => p.1 = "extraFields") }
        rw [filter_objSet_drop rec.extraFields k c hext]

theorem buildGoB_restrict (fs : List String) (cs : List Cell) :
    ∀ (i : Nat) (rec : PartialRecord),
      buildGoB fs i (restrictRecord rec) cs =
        restrictRecord (buildGo fs i rec cs) := by
  induction cs with
  | nil => intro i rec; rfl
  | cons c cs ih =>
    intro i rec
    simp only [buildGoB, buildGo]
    rw [buildStepB_restrict fs rec i c]
    exact ih (i + 1) (buildStep fs rec i c)

theorem validate_restrict (rec : PartialRecord) :
    validateListing (restrictRecord rec) =
      (validateListing rec).map restrictExtra := by
  rcases rec with ⟨c, j, lo, a, u, no, ds, dlm, E⟩
  show validateListing ⟨c, j, lo, a, u, no, ds, dlm,
    E.filter (fun p => p.1 = "extraFields")⟩ = _
  rcases c with _ | c
  · rfl
  rcases j with _ | j
  · rfl
  rcases lo with _ | lo
  · rfl
  rcases a with _ | a
  · rfl
  rcases u with _ | u
  · rfl
  rcases no with _ | no
  · rfl
  rcases ds with _ | ds
  · rfl
  rcases dlm with _ | dlm
  · rfl
  show (if c ≠ "" ∧ j ≠ "" ∧ a ≠ "" ∧ isDatetime ds = true ∧
        isDatetime dlm = true ∧ (u = "" ∨ isURL u = true) then
      some (⟨c, j, lo, a, u, no, ds, dlm,
        E.filter (fun p => p.1 = "extraFields")⟩ : JobListing)
    else none) =
    Option.map restrictExtra
      (if c ≠ "" ∧ j ≠ "" ∧ a ≠ "" ∧ isDatetime ds = true ∧
          isDatetime dlm = true ∧ (u = "" ∨ isURL u = true) then
        some (⟨c, j, lo, a, u, no, ds, dlm, E⟩ : JobListing)
      else none)
  split_ifs <;> rfl

theorem recordsOutB_restrict (fs : List String) (rows : List (List Cell)) :
    recordsOutB fs rows = (recordsOut fs rows).map restrictExtra := by
  induction rows with
  | nil => rfl
  | cons r rs ih =>
    simp only [recordsOutB, recordsOut, List.map_cons, List.flatMap_cons]
      at ih ⊢
    have hb : buildRecordB fs r = restrictRecord (buildRecord fs r) :=
      buildGoB_restrict fs r 0 emptyRecord
    rw [hb, validate_restrict (buildRecord fs r)]
    rcases hv : validateListing (buildRecord fs r) with _ | d <;>
      simp [hv, ih]

/-- The C10 counterexample payload: a pre-split `fields`/`rows` object
with one extra column `src`. -/
def c10json : Json :=
  Json.obj
    [("fields", Json.arr ((requiredFields ++ ["src"]).map Json.str)),
     ("rows", Json.arr [Json.arr (goodRow.map cellToJson)])]

/-- The listing part_002 produces for `c10json`. -/
def c10listA : JobListing :=
  ⟨"Acme", "Engineer", "Remote", "Applied", "https://acme.example/job", "",
   dt1, dt2, [("src", Cell.str "LinkedIn")]⟩

/-- The listing the `helpers.ts` variant produces for `c10json`. -/
def c10listB : JobListing :=
  ⟨"Acme", "Engineer", "Remote", "Applied", "https://acme.example/job", "",
   dt1, dt2, []⟩

/-- C10 counterexample: on the same pre-split input the two
implementations return different arrays — part_002 buckets the `src` cell
into `extraFields`, the `helpers.ts` variant drops it. -/
theorem c10_cex :
    parseJobListings2 c10json = [c10listA] ∧
      parseJobListingsB c10json = [c10listB] ∧ c10listA ≠ c10listB := by
  decide

/-- C10 as amended: the two implementations share validation and
required-field extraction but bucket extra columns differently — for every
input, the `helpers.ts` variant returns exactly the part_002 listings with
`extraFields` restricted to the single key `extraFields`; they agree
exactly when that restriction loses nothing. -/
theorem c10_restriction (j : Json) :
    parseJobListingsB j = (parseJobListings2 j).map restrictExtra := by
  rcases ha : apiDataParse j with _ | ⟨fs, rs⟩ <;>
    simp [parseJobListingsB, parseJobListings2, ha, recordsOutB_restrict]

/-! ### Re-serialization of parse output (C9) -/

/-- The extra-column names of a listing, in insertion order. -/
def keysOf (l : JobListing) : List String := l.extraFields.map Prod.fst

/-- The eight required cells of a listing, in canonical column order. -/
def reqCells (l : JobListing) : List Cell :=
  [Cell.str l.company, Cell.str l.jobTitle, Cell.str l.location,
   Cell.str l.appStatus, Cell.str l.url, Cell.str l.notes,
   Cell.str l.dateSubmitted, Cell.str l.dateLastModified]

/-- One data row per listing: the required cells followed by its extra
cells in their own column order. -/
def listingRow (l : JobListing) : List Cell :=
  reqCells l ++ l.extraFields.map Prod.snd

/-- The longest of a family of key lists (the serialization header's
extra part: every parse-output key list is a prefix of the longest one). -/
def pickLongest (ks : List (List String)) : List String :=
  ks.foldl (fun acc k => if acc.length < k.length then k else acc) []

/-- Re-serializes parser output into an equivalent RawTable payload:
header = the 8 required field names plus the extra-field keys, one data
row per listing with cells in the corresponding column order. -/
def serializeOut (ls : List JobListing) : Json :=
  mkSheet
    (((requiredFields ++ pickLongest (ls.map keysOf)).map Cell.str) ::
      ls.map listingRow)

/-- One list is an initial segment of another. -/
def prefOf (a b : List String) : Prop := ∃ t, b = a ++ t

/-- The per-field constraints a validated listing satisfies. -/
def ListingOk (l : JobListing) : Prop :=
  l.company ≠ "" ∧ l.jobTitle ≠ "" ∧ l.appStatus ≠ "" ∧
    isDatetime l.dateSubmitted = true ∧
    isDatetime l.dateLastModified = true ∧
    (l.url = "" ∨ isURL l.url = true)

/-- First-occurrence deduplication relative to already-seen names — the
key order `extraFields` accumulates under JS upsert semantics. -/
def dGo (seen : List String) : List String → List String
  | [] => []
  | k :: ks => if k ∈ seen then dGo seen ks else k :: dGo (k :: seen) ks

/-- The raw non-required key sequence met when scanning `n` cells with
header `fs` from index `i` on. -/
def rawKeysFrom (fs : List String) : Nat → Nat → List String
  | _, 0 => []
  | i, n + 1 =>
    (if isRequiredField (keyAt fs i) = true then [] else [keyAt fs i]) ++
      rawKeysFrom fs (i + 1) n

theorem prefOf_refl (a : List String) : prefOf a a := ⟨[], by simp⟩

theorem prefOf_nil (a : List String) : prefOf [] a := ⟨a, rfl⟩

theorem prefOf_trans (a b c : List String) (h1 : prefOf a b)
    (h2 : prefOf b c) : prefOf a c := by
  rcases h1 with ⟨t1, h1⟩
  rcases h2 with ⟨t2, h2⟩
  exact ⟨t1 ++ t2, by rw [h2, h1, List.append_assoc]⟩

theorem prefOf_length (a b : List String) (h : prefOf a b) :
    a.length ≤ b.length := by
  rcases h with ⟨t, h⟩
  rw [h, List.length_append]
  omega

theorem prefOf_antisym (a b : List String) (h : prefOf a b)
    (hlen : b.length ≤ a.length) : a = b := by
  rcases h with ⟨t, ht⟩
  rw [ht, List.length_append] at hlen
  have : t = [] := List.length_eq_zero.mp (by omega)
  rw [ht, this, List.append_nil]

theorem objSet_mem_keys (E : List (String × Cell)) (k : String) (v : Cell)
    (h : k ∈ E.map Prod.fst) :
    (objSet E k v).map Prod.fst = E.map Prod.fst := by
  induction E with
  | nil => simp at h
  | cons p E ih =>
    rcases p with ⟨k0, v0⟩
    by_cases hp : k0 = k
    · simp [objSet, hp]
    · simp only [List.map_cons, List.mem_cons] at h
      rcases h with h | h
    -- the head case contradicts hp
      · exact absurd h.symm hp
      · simp [objSet, hp, ih h]

theorem objSet_fresh (E : List (String × Cell)) (k : String) (v : Cell)
    (h : k ∉ E.map Prod.fst) : objSet E k v = E ++ [(k, v)] := by
  induction E with
  | nil => rfl
  | cons p E ih =>
    rcases p with ⟨k0, v0⟩
    simp only [List.map_cons, List.mem_cons, not_or] at h
    have hne : ¬(k0 = k) := fun hc => h.1 hc.symm
    simp [objSet, hne, ih h.2]

theorem dGo_congr (s1 s2 : List String) (l : List String)
    (h : ∀ x, x ∈ s1 ↔ x ∈ s2) : dGo s1 l = dGo s2 l := by
  induction l generalizing s1 s2 with
  | nil => rfl
  | cons k ks ih =>
    by_cases hk : k ∈ s1
    · simp [dGo, hk, (h k).mp hk, ih s1 s2 h]
    · have hk2 : k ∉ s2 := fun hc => hk ((h k).mpr hc)
      simp only [dGo, hk, hk2, if_false, if_neg]
      rw [ih (k :: s1) (k :: s2) (by intro x; simp [h x])]

theorem dGo_sub (seen l : List String) (x : String) (h : x ∈ dGo seen l) :
    x ∈ l := by
  induction l generalizing seen with
  | nil => simp [dGo] at h
  | cons k ks ih =>
    by_cases hk : k ∈ seen
    · rw [dGo, if_pos hk] at h
      exact List.mem_cons_of_mem _ (ih seen h)
    · rw [dGo, if_neg hk] at h
      rcases List.mem_cons.mp h with h | h
      · exact h ▸ List.mem_cons_self _ _
      · exact List.mem_cons_of_mem _ (ih (k :: seen) h)

theorem dGo_fresh (seen l : List String) :
    (∀ x ∈ dGo seen l, x ∉ seen) ∧ (dGo seen l).Nodup := by
  induction l generalizing seen with
  | nil => exact ⟨by simp [dGo], List.nodup_nil⟩
  | cons k ks ih =>
    by_cases hk : k ∈ seen
    · rw [dGo, if_pos hk]
      exact ih seen
    · rw [dGo, if_neg hk]
      rcases ih (k :: seen) with ⟨hfresh, hnd⟩
      constructor
      · intro x hx
        rcases List.mem_cons.mp hx with hx | hx
        · exact hx ▸ hk
        · intro hc
          exact hfresh x hx (List.mem_cons_of_mem _ hc)
      · refine List.nodup_cons.mpr ⟨?_, hnd⟩
        intro hc
        exact hfresh k hc (List.mem_cons_self _ _)

theorem dGo_append (seen a b : List String) :
    ∃ c, dGo seen (a ++ b) = dGo seen a ++ c := by
  induction a generalizing seen with
  | nil => exact ⟨dGo seen b, rfl⟩
  | cons k ks ih =>
    by_cases hk : k ∈ seen
    · rcases ih seen with ⟨c, hc⟩
      exact ⟨c, by simp [dGo, hk, hc]⟩
    · rcases ih (k :: seen) with ⟨c, hc⟩
      exact ⟨c, by simp [dGo, hk, hc]⟩

theorem rawKeysFrom_add (fs : List String) (a : Nat) :
    ∀ (i b : Nat), rawKeysFrom fs i (a + b) =
      rawKeysFrom fs i a ++ rawKeysFrom fs (i + a) b := by
  induction a with
  | zero => intro i b; simp [rawKeysFrom]
  | succ a ih =>
    intro i b
    have h1 : a + 1 + b = (a + b) + 1 := by omega
    rw [h1]
    show (if isRequiredField (keyAt fs i) = true then [] else [keyAt fs i]) ++
        rawKeysFrom fs (i + 1) (a + b) = _
    rw [ih (i + 1) b]
    have h2 : i + 1 + a = i + (a + 1) := by omega
    rw [h2]
    simp [rawKeysFrom, List.append_assoc]

theorem rawKeysFrom_nonreq (fs : List String) (n : Nat) :
    ∀ (i : Nat) (x : String), x ∈ rawKeysFrom fs i n →
      isRequiredField x = false := by
  induction n with
  | zero => intro i x h; simp [rawKeysFrom] at h
  | succ n ih =>
    intro i x h
    rw [rawKeysFrom] at h
    rcases List.mem_append.mp h with h | h
    · by_cases hr : isRequiredField (keyAt fs i) = true
      · rw [if_pos hr] at h
        simp at h
      · rw [if_neg hr] at h
        simp only [List.mem_singleton] at h
        subst h
        exact Bool.not_eq_true _ ▸ Bool.eq_false_iff.mpr hr
    · exact ih (i + 1) x h

theorem buildGo_keys (fs : List String) (cs : List Cell) :
    ∀ (i : Nat) (rec : PartialRecord),
      (buildGo fs i rec cs).extraFields.map Prod.fst =
        rec.extraFields.map Prod.fst ++
          dGo (rec.extraFields.map Prod.fst) (rawKeysFrom fs i cs.length) := by
  induction cs with
  | nil => intro i rec; simp [buildGo, rawKeysFrom, dGo]
  | cons c cs ih =>
    intro i rec
    simp only [buildGo, List.length_cons]
    rw [ih (i + 1) (buildStep fs rec i c)]
    show _ = rec.extraFields.map Prod.fst ++
      dGo (rec.extraFields.map Prod.fst)
        ((if isRequiredField (keyAt fs i) = true then []
            else [keyAt fs i]) ++ rawKeysFrom fs (i + 1) cs.length)
    by_cases hreq : isRequiredField (keyAt fs i) = true
    · have hextra : (buildStep fs rec i c).extraFields = rec.extraFields := by
        unfold buildStep
        rw [if_pos hreq]
        cases c with
        | str s =>
          show (setReq rec (keyAt fs i) s).extraFields = _
          exact setReq_extraFields rec (keyAt fs i) s
        | num n => rfl
        | bool b => rfl
      rw [hextra, if_pos hreq, List.nil_append]
    · have hextra : (buildStep fs rec i c).extraFields =
          objSet rec.extraFields (keyAt fs i) c := by
        unfold buildStep
        rw [if_neg hreq]
      rw [hextra, if_neg hreq]
      by_cases hmem : keyAt fs i ∈ rec.extraFields.map Prod.fst
      · rw [objSet_mem_keys rec.extraFields (keyAt fs i) c hmem]
        show _ = rec.extraFields.map Prod.fst ++
          dGo (rec.extraFields.map Prod.fst)
            (keyAt fs i :: rawKeysFrom fs (i + 1) cs.length)
        rw [dGo, if_pos hmem]
      · rw [objSet_fresh rec.extraFields (keyAt fs i) c hmem]
        show (rec.extraFields ++ [(keyAt fs i, c)]).map Prod.fst ++
            dGo ((rec.extraFields ++ [(keyAt fs i, c)]).map Prod.fst)
              (rawKeysFrom fs (i + 1) cs.length) =
          rec.extraFields.map Prod.fst ++
            dGo (rec.extraFields.map Prod.fst)
              (keyAt fs i :: rawKeysFrom fs (i + 1) cs.length)
        rw [dGo, if_neg hmem]
        simp only [List.map_append, List.map_cons, List.map_nil]
        rw [dGo_congr
          (rec.extraFields.map Prod.fst ++ [keyAt fs i])
          (keyAt fs i :: rec.extraFields.map Prod.fst)
          (rawKeysFrom fs (i + 1) cs.length) (by intro x; simp; tauto)]
        simp

theorem buildRecord_keys (fs : List String) (r : List Cell) :
    (buildRecord fs r).extraFields.map Prod.fst =
      dGo [] (rawKeysFrom fs 0 r.length) := by
  unfold buildRecord
  rw [buildGo_keys fs r 0 emptyRecord]
  rfl

theorem buildRecord_keys_nodup (fs : List String) (r : List Cell) :
    ((buildRecord fs r).extraFields.map Prod.fst).Nodup := by
  rw [buildRecord_keys]
  exact (dGo_fresh [] (rawKeysFrom fs 0 r.length)).2

theorem buildRecord_keys_nonreq (fs : List String) (r : List Cell) :
    ∀ k ∈ (buildRecord fs r).extraFields.map Prod.fst,
      isRequiredField k = false := by
  rw [buildRecord_keys]
  intro k hk
  exact rawKeysFrom_nonreq fs r.length 0 k
    (dGo_sub [] (rawKeysFrom fs 0 r.length) k hk)

theorem buildRecord_keys_comparable (fs : List String) (r1 r2 : List Cell) :
    prefOf ((buildRecord fs r1).extraFields.map Prod.fst)
        ((buildRecord fs r2).extraFields.map Prod.fst) ∨
      prefOf ((buildRecord fs r2).extraFields.map Prod.fst)
        ((buildRecord fs r1).extraFields.map Prod.fst) := by
  have key : ∀ n1 n2 : Nat, n1 ≤ n2 →
      prefOf (dGo [] (rawKeysFrom fs 0 n1)) (dGo [] (rawKeysFrom fs 0 n2)) := by
    intro n1 n2 hle
    have hsplit : rawKeysFrom fs 0 n2 =
        rawKeysFrom fs 0 n1 ++ rawKeysFrom fs (0 + n1) (n2 - n1) := by
      rw [← rawKeysFrom_add fs n1 0 (n2 - n1)]
      congr 1
      omega
    rcases dGo_append [] (rawKeysFrom fs 0 n1)
      (rawKeysFrom fs (0 + n1) (n2 - n1)) with ⟨c, hc⟩
    exact ⟨c, by rw [← hc, ← hsplit]⟩
  rw [buildRecord_keys, buildRecord_keys]
  rcases Nat.le_total r1.length r2.length with hle | hle
  · exact Or.inl (key r1.length r2.length hle)
  · exact Or.inr (key r2.length r1.length hle)

theorem foldl_pick_spec (ks : List (List String)) :
    ∀ (acc : List String),
      (∀ x ∈ ks, prefOf x acc ∨ prefOf acc x) →
      (∀ x ∈ ks, ∀ y ∈ ks, prefOf x y ∨ prefOf y x) →
      prefOf acc
          (ks.foldl (fun a k => if a.length < k.length then k else a) acc) ∧
        (∀ x ∈ ks, prefOf x
          (ks.foldl (fun a k => if a.length < k.length then k else a) acc)) ∧
        (ks.foldl (fun a k => if a.length < k.length then k else a) acc
            = acc ∨
          ks.foldl (fun a k => if a.length < k.length then k else a) acc
            ∈ ks) := by
  induction ks with
  | nil => intro acc _ _; exact ⟨prefOf_refl acc, by simp, Or.inl rfl⟩
  | cons k ks ih =>
    intro acc hcmp hpair
    have hkacc := hcmp k (List.mem_cons_self _ _)
    simp only [List.foldl_cons]
    by_cases hlt : acc.length < k.length
    · rw [if_pos hlt]
      have hak : prefOf acc k := by
        rcases hkacc with h | h
        · have := prefOf_length k acc h
          omega
        · exact h
      have hcmp2 : ∀ x ∈ ks, prefOf x k ∨ prefOf k x := by
        intro x hx
        exact hpair x (List.mem_cons_of_mem _ hx) k (List.mem_cons_self _ _)
      have hpair2 : ∀ x ∈ ks, ∀ y ∈ ks, prefOf x y ∨ prefOf y x := by
        intro x hx y hy
        exact hpair x (List.mem_cons_of_mem _ hx) y (List.mem_cons_of_mem _ hy)
      rcases ih k hcmp2 hpair2 with ⟨h1, h2, h3⟩
      refine ⟨prefOf_trans acc k _ hak h1, ?_, ?_⟩
      · intro x hx
        rcases List.mem_cons.mp hx with hx | hx
        · exact hx ▸ h1
        · exact h2 x hx
      · rcases h3 with h3 | h3
        · rw [h3]
          exact Or.inr (List.mem_cons_self _ _)
        · exact Or.inr (List.mem_cons_of_mem _ h3)
    · rw [if_neg hlt]
      have hka : prefOf k acc := by
        rcases hkacc with h | h
        · exact h
        · have heq := prefOf_antisym acc k h (by omega)
          exact heq ▸ prefOf_refl k
      have hcmp2 : ∀ x ∈ ks, prefOf x acc ∨ prefOf acc x := by
        intro x hx
        exact hcmp x (List.mem_cons_of_mem _ hx)
      have hpair2 : ∀ x ∈ ks, ∀ y ∈ ks, prefOf x y ∨ prefOf y x := by
        intro x hx y hy
        exact hpair x (List.mem_cons_of_mem _ hx) y (List.mem_cons_of_mem _ hy)
      rcases ih acc hcmp2 hpair2 with ⟨h1, h2, h3⟩
      refine ⟨h1, ?_, ?_⟩
      · intro x hx
        rcases List.mem_cons.mp hx with hx | hx
        · exact hx ▸ prefOf_trans k acc _ hka h1
        · exact h2 x hx
      · rcases h3 with h3 | h3
        · exact Or.inl h3
        · exact Or.inr (List.mem_cons_of_mem _ h3)

theorem pickLongest_spec (ks : List (List String))
    (hpair : ∀ x ∈ ks, ∀ y ∈ ks, prefOf x y ∨ prefOf y x) :
    (∀ x ∈ ks, prefOf x (pickLongest ks)) ∧
      (pickLongest ks = [] ∨ pickLongest ks ∈ ks) := by
  have h := foldl_pick_spec ks []
    (fun x _ => Or.inr (prefOf_nil x)) hpair
  exact ⟨h.2.1, h.2.2⟩

theorem keyAt_append_right (a b : List String) :
    ∀ t : Nat, keyAt (a ++ b) (a.length + t) = keyAt b t := by
  induction a with
  | nil => intro t; simp [keyAt]
  | cons f a ih =>
    intro t
    show keyAt (f :: (a ++ b)) (a.length + 1 + t) = keyAt b t
    rw [show a.length + 1 + t = (a.length + t) + 1 by omega]
    exact ih t

theorem keyAt_append_left (a b : List String) :
    ∀ t : Nat, t < a.length → keyAt (a ++ b) t = keyAt a t := by
  induction a with
  | nil => intro t ht; simp at ht
  | cons f a ih =>
    intro t ht
    cases t with
    | zero => rfl
    | succ t => exact ih t (by simpa using ht)

theorem keyAt_eq_atD (l : List String) : ∀ n : Nat, keyAt l n = atD l n "" := by
  induction l with
  | nil => intro n; cases n <;> rfl
  | cons f l ih =>
    intro n
    cases n with
    | zero => rfl
    | succ n => exact ih n

theorem build_extras (fsFull : List String) (E : List (String × Cell)) :
    ∀ (i : Nat) (rec : PartialRecord),
      (∀ u, u < E.length →
        keyAt fsFull (i + u) = atD (E.map Prod.fst) u "") →
      (E.map Prod.fst).Nodup →
      (∀ u, u < E.length →
        isRequiredField (atD (E.map Prod.fst) u "") = false) →
      (∀ k ∈ E.map Prod.fst, k ∉ rec.extraFields.map Prod.fst) →
      buildGo fsFull i rec (E.map Prod.snd) =
        { rec with extraFields := rec.extraFields ++ E } := by
  induction E with
  | nil =>
    intro i rec _ _ _ _
    show rec = { rec with extraFields := rec.extraFields ++ [] }
    rw [List.append_nil]
  | cons p E ih =>
    rcases p with ⟨k, v⟩
    intro i rec halign hnd hnr hdisj
    have hkey : keyAt fsFull i = k := by
      have := halign 0 (by simp)
      simpa using this
    have hreq0 : isRequiredField k = false := by
      have := hnr 0 (by simp)
      simpa using this
    have hkfresh : k ∉ rec.extraFields.map Prod.fst :=
      hdisj k (by simp)
    have hstep : buildStep fsFull rec i v =
        { rec with extraFields := rec.extraFields ++ [(k, v)] } := by
      unfold buildStep
      rw [hkey, if_neg (by simp [hreq0]), objSet_fresh _ _ _ hkfresh]
    show buildGo fsFull (i + 1) (buildStep fsFull rec i v) (E.map Prod.snd) =
      { rec with extraFields := rec.extraFields ++ ((k, v) :: E) }
    rw [hstep]
    rw [ih (i + 1) { rec with extraFields := rec.extraFields ++ [(k, v)] }
      ?_ ?_ ?_ ?_]
    · show ({ rec with
        extraFields := (rec.extraFields ++ [(k, v)]) ++ E } :
          PartialRecord) = _
      rw [List.append_assoc]
      rfl
    · intro u hu
      have := halign (u + 1) (by simpa using Nat.succ_lt_succ hu)
      rw [show i + 1 + u = i + (u + 1) by omega]
      simpa using this
    · simpa using (List.nodup_cons.mp (by simpa using hnd)).2
    · intro u hu
      have := hnr (u + 1) (by simpa using Nat.succ_lt_succ hu)
      simpa using this
    · intro k2 hk2
      simp only [List.map_append, List.map_cons, List.map_nil,
        List.mem_append, List.mem_singleton, not_or]
      have hk2E : k2 ∈ ((k, v) :: E).map Prod.fst := by
        simp only [List.map_cons, List.mem_cons]
        exact Or.inr hk2
      refine ⟨fun hc => hdisj k2 hk2E hc, ?_⟩
      have hknotE : k ∉ E.map Prod.fst :=
        (List.nodup_cons.mp (by simpa using hnd)).1
      intro hc
      subst hc
      exact hknotE hk2

theorem validate_full (l : JobListing) (h : ListingOk l) :
    validateListing
      ⟨some l.company, some l.jobTitle, some l.location, some l.appStatus,
        some l.url, some l.notes, some l.dateSubmitted,
        some l.dateLastModified, l.extraFields⟩ = some l := by
  rcases l with ⟨c, j, lo, a, u, no, ds, dlm, E⟩
  show (if c ≠ "" ∧ j ≠ "" ∧ a ≠ "" ∧ isDatetime ds = true ∧
        isDatetime dlm = true ∧ (u = "" ∨ isURL u = true) then
      some (⟨c, j, lo, a, u, no, ds, dlm, E⟩ : JobListing)
    else none) = some ⟨c, j, lo, a, u, no, ds, dlm, E⟩
  exact if_pos h

theorem rowOutput_listingRow (M : List String) (l : JobListing)
    (hok : ListingOk l) (hkeys : prefOf (keysOf l) M)
    (hnd : (keysOf l).Nodup)
    (hnr : ∀ k ∈ keysOf l, isRequiredField k = false) :
    rowOutput (requiredFields ++ M) (listingRow l) = some l := by
  have hphase1 : buildRecord (requiredFields ++ M) (listingRow l) =
      buildGo (requiredFields ++ M) 8
        (⟨some l.company, some l.jobTitle, some l.location, some l.appStatus,
          some l.url, some l.notes, some l.dateSubmitted,
          some l.dateLastModified, []⟩ : PartialRecord)
        (l.extraFields.map Prod.snd) := rfl
  have hext : buildGo (requiredFields ++ M) 8
      (⟨some l.company, some l.jobTitle, some l.location, some l.appStatus,
        some l.url, some l.notes, some l.dateSubmitted,
        some l.dateLastModified, []⟩ : PartialRecord)
      (l.extraFields.map Prod.snd) =
      ⟨some l.company, some l.jobTitle, some l.location, some l.appStatus,
        some l.url, some l.notes, some l.dateSubmitted,
        some l.dateLastModified, l.extraFields⟩ := by
    rw [build_extras (requiredFields ++ M) l.extraFields 8 _ ?_ hnd ?_ ?_]
    · show ({
          company := some l.company,
          jobTitle := some l.jobTitle,
          location := some l.location,
          appStatus := some l.appStatus,
          url := some l.url,
          notes := some l.notes,
          dateSubmitted := some l.dateSubmitted,
          dateLastModified := some l.dateLastModified,
          extraFields := [] ++ l.extraFields } : PartialRecord) = _
      rw [List.nil_append]
    · intro u hu
      rcases hkeys with ⟨t, ht⟩
      have h1 : keyAt (requiredFields ++ M) (8 + u) = keyAt M u := by
        have := keyAt_append_right requiredFields M u
        simpa using this
      rw [h1, ht, keyAt_append_left (keysOf l) t u (by simpa [keysOf] using hu)]
      exact keyAt_eq_atD (keysOf l) u
    · intro u hu
      refine hnr (atD (keysOf l) u "") ?_
      exact atD_mem (keysOf l) u "" (by simpa [keysOf] using hu)
    · intro k hk
      simp
  show validateListing (buildRecord (requiredFields ++ M) (listingRow l))
    = some l
  rw [hphase1, hext]
  exact validate_full l hok

theorem mem_parse_facts (j : Json) (l : JobListing)
    (h : l ∈ parseJobListings j) :
    ListingOk l ∧ (keysOf l).Nodup ∧
      ∀ k ∈ keysOf l, isRequiredField k = false := by
  obtain ⟨fs, r, ho⟩ := mem_parse_inv j l h
  obtain ⟨p1, p2, p3, p4, p5, p6, pE⟩ := validateListing_props _ _ ho
  have hkeys : keysOf l = (buildRecord fs r).extraFields.map Prod.fst := by
    rw [keysOf, pE]
  refine ⟨⟨p1, p2, p3, p4, p5, p6⟩, ?_, ?_⟩
  · rw [hkeys]
    exact buildRecord_keys_nodup fs r
  · rw [hkeys]
    exact buildRecord_keys_nonreq fs r

theorem mem_parse_compat (j : Json) (l1 l2 : JobListing)
    (h1 : l1 ∈ parseJobListings j) (h2 : l2 ∈ parseJobListings j) :
    prefOf (keysOf l1) (keysOf l2) ∨ prefOf (keysOf l2) (keysOf l1) := by
  have hne : parseJobListings j ≠ [] := List.ne_nil_of_mem h1
  obtain ⟨fc, rows, fs, rs, hs1, hs2, hp⟩ := parse_ne_nil_inv j hne
  rw [hp, recordsOut_eq] at h1 h2
  obtain ⟨r1, _, ho1⟩ := List.mem_filterMap.mp h1
  obtain ⟨r2, _, ho2⟩ := List.mem_filterMap.mp h2
  have e1 : keysOf l1 = (buildRecord fs r1).extraFields.map Prod.fst := by
    rw [keysOf, (validateListing_props _ _ ho1).2.2.2.2.2.2]
  have e2 : keysOf l2 = (buildRecord fs r2).extraFields.map Prod.fst := by
    rw [keysOf, (validateListing_props _ _ ho2).2.2.2.2.2.2]
  rw [e1, e2]
  exact buildRecord_keys_comparable fs r1 r2

theorem serial_tableOk (ls : List JobListing) (M : List String)
    (hne : ls ≠ []) (hMnd : M.Nodup)
    (hMnr : ∀ k ∈ M, isRequiredField k = false) :
    tableOk ((requiredFields ++ M).map Cell.str) (ls.map listingRow)
      (requiredFields ++ M) := by
  refine ⟨?_, ?_, by simpa using hne, ?_⟩
  · exact mapO_map_some cellString Cell.str (requiredFields ++ M)
      (fun s => rfl)
  · have hlen : 8 ≤ (requiredFields ++ M).length := by
      simp [requiredFields]
    have hnd : (requiredFields ++ M).Nodup := by
      refine List.Nodup.append (by decide) hMnd ?_
      intro a ha hb
      have := hMnr a hb
      simp [isRequiredField] at this
      exact this ha
    have hmem : ∀ n ∈ requiredFields, n ∈ requiredFields ++ M :=
      fun n hn => List.mem_append_left M hn
    simp [fieldsOk, hlen, nodup_distinctL _ hnd, hmem]
    refine ⟨by simp [requiredFields], fun n hn => Or.inl hn⟩
  · intro r hr
    obtain ⟨l, _, hl⟩ := List.mem_map.mp hr
    rw [← hl]
    simp [listingRow, reqCells]

theorem filterMap_some_self (f : α → Option α) (l : List α)
    (h : ∀ x ∈ l, f x = some x) : l.filterMap f = l := by
  induction l with
  | nil => rfl
  | cons a as ih =>
    rw [List.filterMap_cons, h a (List.mem_cons_self _ _),
      ih (fun x hx => h x (List.mem_cons_of_mem _ hx))]

/-- C9: parsing is idempotent through re-serialization — re-serializing
the output of `parseJobListings` into an equivalent RawTable payload
(header = the 8 required names plus the extra-field keys, one data row per
listing with cells in the corresponding column order) and parsing a second
time yields exactly the same listings, for every input. -/
theorem c9_idempotent (j : Json) :
    parseJobListings (serializeOut (parseJobListings j)) =
      parseJobListings j := by
  rcases hls : parseJobListings j with _ | ⟨l0, ls'⟩
  · decide
  · have hmem : ∀ l ∈ l0 :: ls', l ∈ parseJobListings j := by
      rw [hls]
      exact fun l hl => hl
    have hfacts : ∀ l ∈ l0 :: ls', ListingOk l ∧ (keysOf l).Nodup ∧
        ∀ k ∈ keysOf l, isRequiredField k = false :=
      fun l hl => mem_parse_facts j l (hmem l hl)
    have hpair : ∀ x ∈ (l0 :: ls').map keysOf,
        ∀ y ∈ (l0 :: ls').map keysOf, prefOf x y ∨ prefOf y x := by
      intro x hx y hy
      obtain ⟨lx, hlx, hex⟩ := List.mem_map.mp hx
      obtain ⟨ly, hly, hey⟩ := List.mem_map.mp hy
      rw [← hex, ← hey]
      exact mem_parse_compat j lx ly (hmem lx hlx) (hmem ly hly)
    obtain ⟨hallpref, hMcase⟩ :=
      pickLongest_spec ((l0 :: ls').map keysOf) hpair
    have hMprops : (pickLongest ((l0 :: ls').map keysOf)).Nodup ∧
        ∀ k ∈ pickLongest ((l0 :: ls').map keysOf),
          isRequiredField k = false := by
      rcases hMcase with hM0 | hMmem
      · rw [hM0]
        exact ⟨List.nodup_nil, by simp⟩
      · obtain ⟨lm, hlm, helm⟩ := List.mem_map.mp hMmem
        rw [← helm]
        exact ⟨(hfacts lm hlm).2.1, (hfacts lm hlm).2.2⟩
    have htab := serial_tableOk (l0 :: ls')
      (pickLongest ((l0 :: ls').map keysOf)) (by simp) hMprops.1 hMprops.2
    have hp := parse_mkSheet _ _ _ htab
    rw [recordsOut_eq] at hp
    show parseJobListings
      (mkSheet
        (((requiredFields ++ pickLongest ((l0 :: ls').map keysOf)).map
            Cell.str) ::
          (l0 :: ls').map listingRow)) = l0 :: ls'
    rw [hp, List.filterMap_map]
    refine filterMap_some_self _ _ ?_
    intro l hl
    show rowOutput (requiredFields ++ pickLongest ((l0 :: ls').map keysOf))
      (listingRow l) = some l
    refine rowOutput_listingRow _ l (hfacts l hl).1 ?_ (hfacts l hl).2.1
      (hfacts l hl).2.2
    exact hallpref (keysOf l) (List.mem_map_of_mem keysOf hl)

end JobTracker
